import Mathlib

/-!
Verification of the text-categorization subsystem of the Data-Mining
repository: the keyword-profile classifier (`news/relabel_unknown_articles.py`),
the statistical Naive-Bayes labeling driver (`news/label_unknown_with_classifier.py`)
and the merge utilities (`news/merge_labeled_unknown.py`, `news/merge_news_urls.py`),
shallowly embedded as executable Lean definitions.  Python dicts and Counters are
modelled as insertion-ordered association lists, Python sets as deduplicated
lists, and float arithmetic as exact rational arithmetic.
-/

namespace DataMining

/-! ## Tokenization (`re.findall(r'\b[a-z]{3,}\b', text.lower())`)

A maximal run of `[a-z]` letters in the lowered text is matched by the
pattern iff it is at least `minLen` characters long and both of its
neighbours (when they exist) are non-word characters: `\b` requires a
word/non-word transition, and no match can start or end inside a run. -/

def isLowerAZ (c : Char) : Bool := 'a' ≤ c && c ≤ 'z'

/-- Python regex `\w` over the ASCII fragment this data uses. -/
def isWordChar (c : Char) : Bool := c.isAlphanum || c = '_'

/-- The regex scanner as a left-to-right state machine: `leftOk` records
whether the character immediately left of the current run (or position,
when no run is open) is absent or a non-word character; `run` accumulates
the current `[a-z]` run in reverse.  A run is emitted when it closes (at a
non-letter or at the end) with both boundaries valid and at least `minLen`
characters. -/
def splitTokensGo (minLen : Nat) (leftOk : Bool) (run : List Char) :
    List Char → List String
  | [] =>
    if leftOk && !run.isEmpty && decide (minLen ≤ run.length) then
      [String.mk run.reverse]
    else []
  | c :: cs =>
    if isLowerAZ c then splitTokensGo minLen leftOk (c :: run) cs
    else
      (if leftOk && !(isWordChar c) && !run.isEmpty && decide (minLen ≤ run.length)
        then [String.mk run.reverse] else []) ++
        splitTokensGo minLen (!(isWordChar c)) [] cs

def splitTokens (minLen : Nat) (l : List Char) : List String :=
  splitTokensGo minLen true [] l

/-- `re.findall(r'\b[a-z]{3,}\b', text.lower())` of
`KeywordBasedLabeler.extract_keywords_from_text`. -/
def tokenizeKeywords (text : String) : List String :=
  splitTokens 3 (text.data.map Char.toLower)

/-- The stop-word literal of `extract_keywords_from_text` (the Python set
literal lists `'has'` twice; set semantics make that irrelevant). -/
def stopWords : List String :=
  ["the", "and", "for", "are", "but", "not", "you", "all", "can", "her",
   "was", "one", "our", "out", "day", "get", "has", "him", "his", "how",
   "its", "may", "new", "now", "old", "see", "two", "way", "who", "boy",
   "did", "has", "let", "put", "say", "she", "too", "use", "bbc", "news",
   "said", "will", "this", "that", "with", "from", "have", "been", "more",
   "than", "their", "would", "there", "about", "which", "could", "other"]

/-- `KeywordBasedLabeler.extract_keywords_from_text`: empty text yields the
empty set; otherwise the regex tokens are filtered by the stop-word list and
by the secondary predicate `len(w) > 3`, and returned as a set (modelled as a
deduplicated list). -/
def extract_keywords_from_text (text : String) : List String :=
  if text = "" then []
  else ((tokenizeKeywords text).filter
          (fun w => decide (w ∉ stopWords ∧ 3 < w.length))).dedup

/-! ## Article records and the labeler state

`KeywordBasedLabeler` keeps `category_keywords` (a `defaultdict(Counter)`)
and `category_profiles` (a dict).  Both are modelled as insertion-ordered
association lists; `__init__` starts both empty. -/

/-- An article record as `build_category_profiles` reads it:
`article.get('category')`, `article.get('title')`, `article.get('tags', [])`. -/
structure KArticle where
  category : Option String
  title : Option String
  tags : List String
deriving DecidableEq, Repr

structure LabelerState where
  category_keywords : List (String × List (String × Nat))
  category_profiles : List (String × List (String × Nat))
deriving DecidableEq, Repr

/-- `KeywordBasedLabeler.__init__`: fresh, empty keyword and profile state. -/
def initLabeler : LabelerState := ⟨[], []⟩

/-- `Counter[keyword] += 1`: bump an existing key in place, else append it
with count 1 (dict insertion order). -/
def incrKey : List (String × Nat) → String → List (String × Nat)
  | [], k => [(k, 1)]
  | (k', n) :: rest, k =>
    if k' = k then (k', n + 1) :: rest else (k', n) :: incrKey rest k

/-- `self.category_keywords[category][keyword] += 1` where the outer map is a
`defaultdict`: a new category is appended on first touch. -/
def bumpCategory : List (String × List (String × Nat)) → String → String →
    List (String × List (String × Nat))
  | [], cat, kw => [(cat, incrKey [] kw)]
  | (c, ctr) :: rest, cat, kw =>
    if c = cat then (c, incrKey ctr kw) :: rest
    else (c, ctr) :: bumpCategory rest cat kw

/-- The per-article keyword pool of `build_category_profiles`:
`keywords = extract(title)` then `keywords.update(extract(tag))` for every
truthy tag — a set, modelled as a deduplicated list. -/
def article_keywords (title : String) (tags : List String) : List String :=
  (extract_keywords_from_text title ++
    tags.foldl (fun acc tag =>
      if tag = "" then acc else acc ++ extract_keywords_from_text tag) []).dedup

/-- One iteration of the collection loop of `build_category_profiles`
(lines 123–143): articles with a falsy or `'unknown'` category are skipped,
as are those without a truthy title; otherwise every pooled keyword bumps
the article's category counter once. -/
def add_article_keywords (st : List (String × List (String × Nat)))
    (a : KArticle) : List (String × List (String × Nat)) :=
  match a.category with
  | none => st
  | some cat =>
    if cat = "" ∨ cat = "unknown" then st
    else
      match a.title with
      | none => st
      | some t =>
        if t = "" then st
        else (article_keywords t a.tags).foldl (fun s kw => bumpCategory s cat kw) st

/-- Stable insertion for a descending sort by count: an element is placed
after every element whose count is ≥ its own, matching Python's stable
`sorted(..., reverse=True)` used by `Counter.most_common`. -/
def insertByCount (p : String × Nat) : List (String × Nat) → List (String × Nat)
  | [] => [p]
  | q :: qs => if p.2 ≤ q.2 then q :: insertByCount p qs else p :: q :: qs

/-- `Counter.most_common()`: the counter's items sorted by count, descending,
ties in insertion order. -/
def mostCommon (ctr : List (String × Nat)) : List (String × Nat) :=
  ctr.foldl (fun acc p => insertByCount p acc) []

/-- The profile comprehension of `build_category_profiles` (lines 148–152):
top 100 keywords by count, keeping those with `count >= min_keywords`. -/
def buildProfile (ctr : List (String × Nat)) (min_keywords : Nat) :
    List (String × Nat) :=
  ((mostCommon ctr).take 100).filter (fun p => decide (min_keywords ≤ p.2))

/-- `self.category_profiles[category] = top_keywords`: replace an existing
key wholesale, else append. -/
def setProfile (ps : List (String × List (String × Nat))) (cat : String)
    (prof : List (String × Nat)) : List (String × List (String × Nat)) :=
  match ps with
  | [] => [(cat, prof)]
  | (c, p) :: rest =>
    if c = cat then (c, prof) :: rest else (c, p) :: setProfile rest cat prof

/-- `KeywordBasedLabeler.build_category_profiles`: collect per-category
document frequencies over the given articles on top of the labeler's current
`category_keywords`, then assign each collected category's profile. -/
def build_category_profiles (s : LabelerState) (articles : List KArticle)
    (min_keywords : Nat) : LabelerState :=
  let kw := articles.foldl add_article_keywords s.category_keywords
  let profiles := kw.foldl (fun ps cp => setProfile ps cp.1 (buildProfile cp.2 min_keywords))
    s.category_profiles
  ⟨kw, profiles⟩

/-- The driver's rebuild (`relabel_unknown_articles` line 303/308): a fresh
`KeywordBasedLabeler` is constructed and its profiles built from scratch. -/
def rebuild_profiles (articles : List KArticle) (min_keywords : Nat) :
    List (String × List (String × Nat)) :=
  (build_category_profiles initLabeler articles min_keywords).category_profiles

/-! ## Keyword classification (`classify_by_keywords`, lines 159–209) -/

/-- The tag keyword pool of `classify_by_keywords`: `tag_keywords.update(...)`
over all tags (an empty tag list is falsy and skipped, which the fold
reproduces; `extract_keywords_from_text` already maps empty tags to `∅`). -/
def tag_keywords_of (tags : List String) : List String :=
  tags.foldl (fun acc tag => acc ++ extract_keywords_from_text tag) []

/-- `all_keywords = title_keywords | tag_keywords`. -/
def all_keywords_of (title : String) (tags : List String) : List String :=
  (extract_keywords_from_text title ++ tag_keywords_of tags).dedup

/-- `matches = sum(1 for kw in all_keywords if kw in profile_keywords)`. -/
def keywordMatches (kws : List String) (pk : List (String × Nat)) : Nat :=
  (kws.filter (fun kw => (List.lookup kw pk).isSome)).length

/-- `weighted_score = sum(profile_keywords.get(kw, 0) for kw in all_keywords
if kw in profile_keywords)`. -/
def weightedScore (kws : List String) (pk : List (String × Nat)) : Nat :=
  ((kws.filter (fun kw => (List.lookup kw pk).isSome)).map
    (fun kw => (List.lookup kw pk).getD 0)).sum

/-- One iteration of the scoring loop (lines 181–196): an empty profile is
skipped before any confidence is computed; a scored category records
`(matches, confidence, weighted_score)` only when at least one keyword
matched. -/
def scoreEntry (kws : List String) (cp : String × List (String × Nat)) :
    Option (String × Nat × ℚ × Nat) :=
  if cp.2 = [] then none
  else
    let m := keywordMatches kws cp.2
    if 0 < m then
      some (cp.1, m, (m : ℚ) / (cp.2.length : ℚ), weightedScore kws cp.2)
    else none

/-- The `category_scores` dict (lines 180–196), in enumeration order. -/
def categoryScores (profiles : List (String × List (String × Nat)))
    (kws : List String) : List (String × Nat × ℚ × Nat) :=
  profiles.filterMap (scoreEntry kws)

/-- Python's `max(..., key=...)`: the first element attaining the maximal key. -/
def pyMaxBy {α : Type} (key : α → Nat) : α → List α → α
  | b, [] => b
  | b, x :: xs => pyMaxBy key (if key b < key x then x else b) xs

/-- `KeywordBasedLabeler.classify_by_keywords`: `None` for a falsy title, an
empty keyword pool, or no scored category; otherwise the best-scoring
category, accepted only when `matches >= 2 and confidence > 0.1`. -/
def classify_by_keywords (profiles : List (String × List (String × Nat)))
    (title : String) (tags : List String) : Option (String × ℚ) :=
  if title = "" then none
  else
    let allk := all_keywords_of title tags
    if allk = [] then none
    else
      match categoryScores profiles allk with
      | [] => none
      | s :: ss =>
        let best := pyMaxBy (fun e => e.2.2.2) s ss
        if 2 ≤ best.2.1 ∧ (1 : ℚ) / 10 < best.2.2.1 then
          some (best.1, best.2.2.1)
        else none

/-! ## Document frequency (the specification-level count for a keyword)

`docFrequency articles cat kw` counts the articles that contribute a bump
for `kw` to category `cat`: exactly those the collection loop does not skip
and whose pooled keyword set contains `kw`. -/

def contributesTo (a : KArticle) (cat kw : String) : Bool :=
  match a.category, a.title with
  | some c, some t =>
    c = cat && !(c = "") && !(c = "unknown") && !(t = "") &&
      decide (kw ∈ article_keywords t a.tags)
  | _, _ => false

def docFrequency (articles : List KArticle) (cat kw : String) : Nat :=
  (articles.filter (fun a => contributesTo a cat kw)).length

/-! ## URL merge (`merge_news_urls.py`) -/

/-- Replace every occurrence of `pat` in a character list, left to right
(Python `str.replace`). -/
def replaceAll (pat repl : List Char) : List Char → List Char
  | [] => []
  | c :: cs =>
    if pat ≠ [] ∧ pat.isPrefixOf (c :: cs) then
      repl ++ replaceAll pat repl ((c :: cs).drop pat.length)
    else
      c :: replaceAll pat repl cs
termination_by l => l.length
decreasing_by
  · rename_i hp
    simp only [List.length_drop, List.length_cons]
    have : 1 ≤ pat.length := by
      cases pat with
      | nil => exact absurd rfl hp.1
      | cons x xs => simp
    omega
  · simp

/-- `normalize_url` (lines 18–30): lowercase, strip trailing slashes,
promote a leading `http://` to `https://`, and collapse the two `www.`
BBC host spellings. -/
def normalize_url (url : String) : String :=
  let u := (url.data.map Char.toLower).reverse.dropWhile (fun c => c = '/') |>.reverse
  let u := if "http://".data.isPrefixOf u then "https://".data ++ u.drop 7 else u
  let u := replaceAll "www.bbc.co.uk".data "bbc.co.uk".data u
  let u := replaceAll "www.bbc.com".data "bbc.com".data u
  String.mk u

structure UrlMerge where
  seen : List String
  merged : List String
  dups : Nat
deriving DecidableEq, Repr

/-- One iteration of the dedup loops of `merge_and_label_urls`
(lines 83–97): an unseen normalized key stores the original URL (first-seen
copy wins); a seen key is dropped, counted only in the second file's pass. -/
def urlStep (countDup : Bool) (st : UrlMerge) (url : String) : UrlMerge :=
  let n := normalize_url url
  if n ∈ st.seen then
    { st with dups := if countDup then st.dups + 1 else st.dups }
  else
    { st with seen := n :: st.seen, merged := st.merged ++ [url] }

/-- The merge-and-dedup core of `merge_and_label_urls` (lines 77–104):
returns `(merged unique URLs, duplicates_count)`. -/
def merge_and_dedup_urls (urls1 urls2 : List String) : List String × Nat :=
  let s1 := urls1.foldl (urlStep false) ⟨[], [], 0⟩
  let s2 := urls2.foldl (urlStep true) s1
  (s2.merged, s2.dups)

/-! ## Labeled-article merge (`merge_labeled_unknown.py`) -/

/-- A `good_categories.json` record. -/
structure TLArticle where
  text : String
  label : String
deriving DecidableEq, Repr

/-- An `unknown_labeled.json` record as `merge_labeled_articles` reads it. -/
structure PredArticle where
  text : String
  label : String
  confidence : ℚ
deriving DecidableEq, Repr

/-- `merge_labeled_articles` (lines 48–94): filter the labeled articles by
the confidence threshold, project to `{text, label}`, and append them to the
existing articles.  No deduplication of any kind is performed. -/
def merge_labeled_articles (existing : List TLArticle)
    (labeled : List PredArticle) (min_confidence : ℚ) : List TLArticle :=
  existing ++ (labeled.filter (fun a => decide (min_confidence ≤ a.confidence))).map
    (fun a => ⟨a.text, a.label⟩)

/-! ## Statistical classifier (`label_unknown_with_classifier.py`)

The repository code prepares `texts`/`labels`, calls scikit-learn's
`train_test_split`, `CountVectorizer` and `MultinomialNB`, and post-processes
`predict`/`predict_proba` output.  The scikit-learn internals are not part of
the repository; they are modelled from the spec where a claim depends on
them, with exact rational arithmetic in place of floats. -/

/-- The corpus-preparation loop of `train_classifier` (lines 28–31): every
record's text is taken, with no filtering of any label. -/
def trainTexts (data : List TLArticle) : List String := data.map (fun a => a.text)

/-- The corpus-preparation loop of `train_classifier` (lines 28–31): every
record's label is taken, with no filtering. -/
def trainLabels (data : List TLArticle) : List String := data.map (fun a => a.label)

/-- How many records of the corpus carry label `l`. -/
def countLabel (labels : List String) (l : String) : Nat :=
  (labels.filter (fun x => decide (x = l))).length

/-- The spec's error taxonomy for training-time failures. -/
inductive DataError where
  | insufficientData
deriving DecidableEq, Repr

/-- `CountVectorizer(lowercase=True, token_pattern=r'\b[a-z]+\b', ...)`
tokenization: like the keyword tokenizer but with a one-character minimum. -/
def tokenizeNB (text : String) : List String :=
  splitTokens 1 (text.data.map Char.toLower)

/-- One category's records, in corpus order (stratification groups). -/
def strat_group (data : List TLArticle) (c : String) : List TLArticle :=
  data.filter (fun a => decide (a.label = c))

/-- The 80% training side of the stratified split: each category, in
first-occurrence order, contributes its first `n - n / 5` records. -/
def train_split (data : List TLArticle) : List TLArticle :=
  (((trainLabels data).dedup).map (fun c =>
    (strat_group data c).take
      ((strat_group data c).length - (strat_group data c).length / 5))).flatten

/-- The 20% test side of the stratified split: each category contributes its
last `n / 5` records. -/
def test_split (data : List TLArticle) : List TLArticle :=
  (((trainLabels data).dedup).map (fun c =>
    (strat_group data c).drop
      ((strat_group data c).length - (strat_group data c).length / 5))).flatten

/-- Modelled from the spec: scikit-learn's
`train_test_split(texts, labels, test_size=0.2, random_state=42, stratify=labels)`
is library code, not repository code.  Per the spec it fails (a `DataError`)
iff some category has fewer than 2 examples, and otherwise splits 80/20
stratified by label, deterministically (the random seed is fixed). -/
def train_test_split (data : List TLArticle) :
    Except DataError (List TLArticle × List TLArticle) :=
  if data.any (fun a => decide (countLabel (trainLabels data) a.label < 2)) then
    .error .insufficientData
  else .ok (train_split data, test_split data)

/-- Modelled from the spec: `CountVectorizer(min_df=2, max_features=10000)`
vocabulary building is library code.  Per the spec: lowercase `[a-z]+`
tokens kept when they appear in at least 2 distinct documents, capped at the
10000 most frequent. -/
def build_vocabulary (docs : List String) : List String :=
  let toks := docs.map tokenizeNB
  let candidates := (toks.flatten.dedup).filter
    (fun t => decide (2 ≤ (toks.filter (fun d => decide (t ∈ d))).length))
  ((mostCommon (candidates.map (fun t => (t, toks.flatten.count t)))).take 10000).map
    (fun p => p.1)

/-- `train_classifier` (lines 9–64): prepare the corpus, stratified-split it,
fit the vectorizer's vocabulary on the training split.  The trained-model
handle is the split plus the realized vocabulary; a `DataError` aborts with
no partial model. -/
def train_classifier (data : List TLArticle) :
    Except DataError (List TLArticle × List TLArticle × List String) :=
  match train_test_split data with
  | .error e => .error e
  | .ok (tr, te) => .ok (tr, te, build_vocabulary (trainTexts tr))

/-! ## Prediction (`label_unknown_articles`, lines 66–118) -/

/-- A fitted multinomial Naive Bayes pipeline, modelled from the spec:
class names, class prior weights, per-class per-vocabulary-token smoothed
frequency weights, and the fitted vocabulary. -/
structure NBModel where
  classes : List String
  prior : List ℚ
  theta : List (List ℚ)
  vocab : List String
deriving DecidableEq, Repr

/-- The document-term vector of a text over the fitted vocabulary. -/
def vectorize (vocab : List String) (text : String) : List Nat :=
  vocab.map (fun v => (tokenizeNB text).count v)

/-- Modelled from the spec: the multinomial event model's joint likelihood
per class, `prior_i * ∏_f theta_{i,f} ^ x_f`, in exact rationals. -/
def jointLikelihood (m : NBModel) (x : List Nat) : List ℚ :=
  (List.range m.classes.length).map (fun i =>
    m.prior.getD i 0 * ((m.theta.getD i []).zipWith (fun t n => t ^ n) x).prod)

/-- `classifier.predict_proba`: the joint likelihoods normalized to sum 1. -/
def predict_proba (m : NBModel) (text : String) : List ℚ :=
  let js := jointLikelihood m (vectorize m.vocab text)
  js.map (fun j => j / js.sum)

/-- `np.argmax` — the first index attaining the maximum. -/
def argmaxGo (vals : List ℚ) (bi i : Nat) (bv : ℚ) : List ℚ → Nat
  | [] => bi
  | y :: ys => if bv < y then argmaxGo vals i (i + 1) y ys else argmaxGo vals bi (i + 1) bv ys

def argmaxFirst (vals : List ℚ) : Nat :=
  match vals with
  | [] => 0
  | x :: xs => argmaxGo vals 0 1 x xs

/-- `classifier.predict` for one text: the class with maximal joint
likelihood (equivalently maximal posterior). -/
def predict (m : NBModel) (text : String) : String :=
  (m.classes.getD (argmaxFirst (jointLikelihood m (vectorize m.vocab text))) "")

/-- The comparison relation of `np.argsort` over a probability vector:
indices ordered by their probability, ascending. -/
def probLE (vals : List ℚ) (a b : Nat) : Prop := vals.getD a 0 ≤ vals.getD b 0

instance (vals : List ℚ) : DecidableRel (probLE vals) := fun a b =>
  inferInstanceAs (Decidable (vals.getD a 0 ≤ vals.getD b 0))

/-- `np.argsort(probs)`: a permutation of the index range sorted by
probability, ascending. -/
def argsortAsc (vals : List ℚ) : List Nat :=
  List.insertionSort (probLE vals) (List.range vals.length)

/-- One element of the `labeled_articles` output (lines 111–116). -/
structure OutRecord where
  text : String
  label : String
  confidence : ℚ
  top_predictions : List (String × ℚ)
deriving DecidableEq, Repr

/-- The per-text body of the labeling loop (lines 96–116): predicted label,
its posterior as a 0–100 percentage, and the top-3 classes by posterior,
descending (`np.argsort(probs)[-3:][::-1]`). -/
def labelOne (m : NBModel) (text : String) : OutRecord :=
  let probs := predict_proba m text
  let predLabel := predict m text
  let predIdx := m.classes.findIdx (fun c => decide (c = predLabel))
  let topIdx := (argsortAsc probs).reverse.take 3
  { text := text
    label := predLabel
    confidence := probs.getD predIdx 0 * 100
    top_predictions := topIdx.map (fun i => (m.classes.getD i "", probs.getD i 0 * 100)) }

/-- `label_unknown_articles`: every text receives a prediction record. -/
def label_unknown_articles (m : NBModel) (texts : List String) : List OutRecord :=
  texts.map (labelOne m)

/-- Well-formedness of a fitted model, as `MultinomialNB(alpha=1.0)` training
guarantees: distinct, non-empty class list; prior and theta rows aligned with
it; all prior weights and smoothed frequencies strictly positive (Laplace
smoothing makes every estimate positive). -/
def NBModel.WF (m : NBModel) : Prop :=
  m.classes ≠ [] ∧ m.classes.Nodup ∧
    m.prior.length = m.classes.length ∧ m.theta.length = m.classes.length ∧
    (∀ p ∈ m.prior, 0 < p) ∧ ∀ row ∈ m.theta, ∀ t ∈ row, 0 < t

/-! ## Helper lemmas -/

theorem mem_foldl_append {α β : Type} [DecidableEq α] (f : β → List α)
    (l : List β) (acc : List α) (x : α) :
    (x ∈ l.foldl (fun a t => a ++ f t) acc) ↔ x ∈ acc ∨ ∃ t ∈ l, x ∈ f t := by
  induction l generalizing acc with
  | nil => simp
  | cons t ts ih =>
    simp only [List.foldl_cons, ih, List.mem_append, List.mem_cons]
    constructor
    · rintro ((h | h) | ⟨u, hu, hx⟩)
      · exact Or.inl h
      · exact Or.inr ⟨t, Or.inl rfl, h⟩
      · exact Or.inr ⟨u, Or.inr hu, hx⟩
    · rintro (h | ⟨u, (rfl | hu), hx⟩)
      · exact Or.inl (Or.inl h)
      · exact Or.inl (Or.inr hx)
      · exact Or.inr ⟨u, hu, hx⟩

theorem mem_extract_keywords (text w : String) :
    w ∈ extract_keywords_from_text text ↔
      w ∈ tokenizeKeywords text ∧ w ∉ stopWords ∧ 3 < w.length := by
  by_cases ht : text = ""
  · subst ht
    simp [extract_keywords_from_text, tokenizeKeywords, splitTokens, splitTokensGo]
  · simp [extract_keywords_from_text, ht, List.mem_dedup, List.mem_filter,
      and_assoc]

theorem mem_tag_keywords (tags : List String) (w : String) :
    w ∈ tag_keywords_of tags ↔ ∃ tag ∈ tags, w ∈ extract_keywords_from_text tag := by
  simpa using mem_foldl_append extract_keywords_from_text tags [] w

theorem mem_all_keywords (title : String) (tags : List String) (w : String) :
    w ∈ all_keywords_of title tags ↔
      w ∈ extract_keywords_from_text title ∨
        ∃ tag ∈ tags, w ∈ extract_keywords_from_text tag := by
  simp [all_keywords_of, List.mem_dedup, List.mem_append, mem_tag_keywords]

/-! ## C7 — keyword extraction's length filter -/

/-- C7 (counterexample): the claim says extraction returns every lowercase
alphabetic token of length ≥ 3 that is not a stop word, but `"dog"` — a
3-letter token matched by the regex and absent from the stop-word list — is
dropped by the secondary `len(w) > 3` predicate, so extraction returns the
empty set on the input `"dog"`. -/
theorem extract_keywords_length_three_counterexample :
    "dog" ∈ tokenizeKeywords "dog" ∧ "dog" ∉ stopWords ∧ 3 ≤ "dog".length ∧
      extract_keywords_from_text "dog" = [] := by decide

/-- C7 (amended): for every input string, keyword extraction returns exactly
the set of lowercase alphabetic regex tokens of length ≥ 4 — the regex admits
length ≥ 3 but the filtering step's `> 3` prevails — excluding the fixed
stop-word list; and the classification pool unites the title's and every
tag's extracted keywords without distinguishing source. -/
theorem extract_keywords_minimum_length :
    ∀ (text w : String),
      (w ∈ extract_keywords_from_text text ↔
        w ∈ tokenizeKeywords text ∧ w ∉ stopWords ∧ 4 ≤ w.length)
      ∧ ∀ (title : String) (tags : List String),
          (w ∈ all_keywords_of title tags ↔
            w ∈ extract_keywords_from_text title ∨
              ∃ tag ∈ tags, w ∈ extract_keywords_from_text tag) := by
  intro text w
  refine ⟨?_, fun title tags => mem_all_keywords title tags w⟩
  rw [mem_extract_keywords]
  exact ⟨fun ⟨h1, h2, h3⟩ => ⟨h1, h2, h3⟩, fun ⟨h1, h2, h3⟩ => ⟨h1, h2, h3⟩⟩

/-! ## C3 — exclusion of `'unknown'` records from training -/

/-- The condition under which the collection loop of
`build_category_profiles` does not skip an article's category. -/
def knownCategory (a : KArticle) : Bool :=
  match a.category with
  | none => false
  | some c => !(c = "") && !(c = "unknown")

theorem add_article_keywords_skip (st : List (String × List (String × Nat)))
    (a : KArticle) (h : knownCategory a = false) :
    add_article_keywords st a = st := by
  cases hc : a.category with
  | none => simp [add_article_keywords, hc]
  | some c =>
    have hco : c = "" ∨ c = "unknown" := by
      unfold knownCategory at h
      rw [hc] at h
      simp only [Bool.and_eq_false_iff, Bool.not_eq_false', decide_eq_true_eq] at h
      tauto
    rcases hco with rfl | rfl <;> simp [add_article_keywords, hc]

/-- C3 (counterexample): the statistical classifier's corpus-preparation
loop (`train_classifier`, lines 24–31) filters nothing: handed a mixed
corpus containing an `'unknown'`-labeled record, that record's text and
label both enter the training lists. -/
theorem train_classifier_includes_unknown_counterexample :
    trainTexts [⟨"mystery body", "unknown"⟩, ⟨"market report", "business"⟩] =
        ["mystery body", "market report"] ∧
      "unknown" ∈ trainLabels
        [⟨"mystery body", "unknown"⟩, ⟨"market report", "business"⟩] := by
  decide

/-- C3 (amended): the keyword classifier's profile build is blind to records
whose category is missing, empty or `'unknown'` — building over a mixed
corpus equals building over its restriction to known-category records, so
exactly the unknown/missing-category records are excluded; the statistical
classifier's `train_classifier`, in contrast, takes every record's text and
label unfiltered, and exclusion of `'unknown'` records relies on the
upstream corpus construction. -/
theorem unknown_exclusion_amended :
    ∀ (articles : List KArticle) (mk : Nat),
      build_category_profiles initLabeler articles mk =
        build_category_profiles initLabeler (articles.filter knownCategory) mk
      ∧ ∀ (data : List TLArticle),
          trainTexts data = data.map (fun a => a.text) ∧
            trainLabels data = data.map (fun a => a.label) := by
  intro articles mk
  refine ⟨?_, fun data => ⟨rfl, rfl⟩⟩
  have key : ∀ (l : List KArticle) (st : List (String × List (String × Nat))),
      l.foldl add_article_keywords st = (l.filter knownCategory).foldl add_article_keywords st := by
    intro l
    induction l with
    | nil => intro st; rfl
    | cons a as ih =>
      intro st
      by_cases ha : knownCategory a
      · simp only [List.filter_cons, ha, if_pos, List.foldl_cons]
        exact ih _
      · simp only [List.foldl_cons, List.filter_cons,
          Bool.not_eq_true] at *
        rw [add_article_keywords_skip st a (by simpa using ha)]
        simp only [ha]
        exact ih st
  unfold build_category_profiles
  rw [key]

/-! ## C4 — merge semantics -/

theorem urlStep_seen_mono (b : Bool) (st : UrlMerge) (u : String) :
    st.seen ⊆ (urlStep b st u).seen := by
  unfold urlStep
  by_cases h : normalize_url u ∈ st.seen <;> simp [h, List.subset_cons_of_subset]

theorem foldl_urlStep_seen_mono (b : Bool) (l : List String) (st : UrlMerge) :
    st.seen ⊆ (l.foldl (urlStep b) st).seen := by
  induction l generalizing st with
  | nil => exact fun x hx => hx
  | cons u us ih =>
    intro x hx
    exact ih (urlStep b st u) (urlStep_seen_mono b st u hx)

theorem mem_seen_of_mem (b : Bool) (l : List String) (st : UrlMerge)
    (u : String) (hu : u ∈ l) :
    normalize_url u ∈ (l.foldl (urlStep b) st).seen := by
  induction l generalizing st with
  | nil => cases hu
  | cons v vs ih =>
    rcases List.mem_cons.mp hu with rfl | hu'
    · refine foldl_urlStep_seen_mono b vs (urlStep b st u) ?_
      unfold urlStep
      by_cases h : normalize_url u ∈ st.seen <;> simp [h]
    · exact ih (urlStep b st v) hu'

theorem foldl_urlStep_all_seen (b : Bool) (l : List String) (st : UrlMerge)
    (h : ∀ u ∈ l, normalize_url u ∈ st.seen) :
    l.foldl (urlStep b) st =
      { st with dups := st.dups + if b then l.length else 0 } := by
  induction l generalizing st with
  | nil => cases st; simp
  | cons u us ih =>
    have hu : normalize_url u ∈ st.seen := h u (List.mem_cons_self u us)
    simp only [List.foldl_cons]
    have hstep : urlStep b st u =
        { st with dups := if b then st.dups + 1 else st.dups } := by
      unfold urlStep; rw [if_pos hu]
    rw [hstep,
      ih { st with dups := if b then st.dups + 1 else st.dups }
        (fun v hv => h v (List.mem_cons_of_mem u hv))]
    cases b with
    | false => simp
    | true => simp; omega

theorem foldl_urlStep_fresh (l : List String) (st : UrlMerge)
    (hnd : (l.map normalize_url).Nodup)
    (hfresh : ∀ u ∈ l, normalize_url u ∉ st.seen) :
    l.foldl (urlStep false) st =
      ⟨(l.map normalize_url).reverse ++ st.seen, st.merged ++ l, st.dups⟩ := by
  induction l generalizing st with
  | nil => cases st; simp
  | cons u us ih =>
    simp only [List.map_cons, List.nodup_cons, List.mem_map] at hnd
    have hu : normalize_url u ∉ st.seen := hfresh u (List.mem_cons_self u us)
    simp only [List.foldl_cons]
    have hstep : urlStep false st u =
        { st with seen := normalize_url u :: st.seen,
                  merged := st.merged ++ [u] } := by
      unfold urlStep; rw [if_neg hu]
    have hfresh2 : ∀ v ∈ us, normalize_url v ∉
        ({ st with seen := normalize_url u :: st.seen,
                   merged := st.merged ++ [u] } : UrlMerge).seen := by
      intro v hv
      simp only [List.mem_cons, not_or]
      exact ⟨fun heq => hnd.1 ⟨v, hv, heq⟩, hfresh v (List.mem_cons_of_mem u hv)⟩
    rw [hstep,
      ih { st with seen := normalize_url u :: st.seen, merged := st.merged ++ [u] }
        hnd.2 hfresh2]
    simp

/-- C4 (counterexample): `merge_labeled_articles` concatenates after its
confidence filter and never deduplicates, so merging a one-record labeled
dataset with itself (at the default threshold 0) yields two records, not a
result equal in size to the original with zero net additions. -/
theorem merge_labeled_articles_not_idempotent :
    merge_labeled_articles [⟨"stocks rallied", "business"⟩]
        [⟨"stocks rallied", "business", 90⟩] 0 =
      [⟨"stocks rallied", "business"⟩, ⟨"stocks rallied", "business"⟩] ∧
    (merge_labeled_articles [⟨"stocks rallied", "business"⟩]
        [⟨"stocks rallied", "business", 90⟩] 0).length ≠ 1 := by
  constructor
  · rfl
  · decide

/-- C4 (amended): the URL merge (`merge_and_label_urls`) deduplicates by
normalized URL, first-seen copy winning and later duplicates silently
dropped and counted: merging a URL list with any subset of itself
contributes zero net additions, and when the list has no internal duplicate
normalized keys, merging it with itself returns exactly the original list
with every second-file entry counted as a duplicate.  `merge_labeled_articles`,
in contrast, concatenates after its confidence filter with no deduplication. -/
theorem merge_and_dedup_urls_idempotent :
    ∀ (urls sub : List String),
      ((∀ u ∈ sub, u ∈ urls) →
        (merge_and_dedup_urls urls sub).1 = (merge_and_dedup_urls urls []).1)
      ∧ ((urls.map normalize_url).Nodup →
          merge_and_dedup_urls urls urls = (urls, urls.length)) := by
  intro urls sub
  constructor
  · intro hsub
    have hseen : ∀ u ∈ sub,
        normalize_url u ∈ (urls.foldl (urlStep false) ⟨[], [], 0⟩).seen :=
      fun u hu => mem_seen_of_mem false urls ⟨[], [], 0⟩ u (hsub u hu)
    show (List.foldl (urlStep true)
        (List.foldl (urlStep false) (⟨[], [], 0⟩ : UrlMerge) urls) sub).merged =
      (List.foldl (urlStep true)
        (List.foldl (urlStep false) (⟨[], [], 0⟩ : UrlMerge) urls) []).merged
    rw [foldl_urlStep_all_seen true sub _ hseen]
    rfl
  · intro hnd
    have h1 : List.foldl (urlStep false) (⟨[], [], 0⟩ : UrlMerge) urls =
        ⟨(urls.map normalize_url).reverse, urls, 0⟩ := by
      have := foldl_urlStep_fresh urls ⟨[], [], 0⟩ hnd (by simp)
      simpa using this
    have hseen : ∀ u ∈ urls, normalize_url u ∈
        (UrlMerge.mk ((urls.map normalize_url).reverse) urls 0).seen := by
      intro u hu
      simp only [List.mem_reverse, List.mem_map]
      exact ⟨u, hu, rfl⟩
    have h2 := foldl_urlStep_all_seen true urls
      ⟨(urls.map normalize_url).reverse, urls, 0⟩ hseen
    show ((List.foldl (urlStep true)
        (List.foldl (urlStep false) (⟨[], [], 0⟩ : UrlMerge) urls) urls).merged,
      (List.foldl (urlStep true)
        (List.foldl (urlStep false) (⟨[], [], 0⟩ : UrlMerge) urls) urls).dups) =
      (urls, urls.length)
    rw [h1, h2]
    simp

/-! ## Counter correctness: profile counts are document frequencies -/

/-- The count a counter holds for a key (0 when absent). -/
def lookupCount (ctr : List (String × Nat)) (k : String) : Nat :=
  (List.lookup k ctr).getD 0

/-- The count the labeler's keyword state holds for a (category, keyword). -/
def catCount (st : List (String × List (String × Nat))) (cat kw : String) : Nat :=
  lookupCount ((List.lookup cat st).getD []) kw

theorem lookup_cons_ne {β : Type} (l : List (String × β)) (k k0 : String) (v : β)
    (h : ¬ k = k0) : List.lookup k ((k0, v) :: l) = List.lookup k l := by
  simp [List.lookup_cons, beq_eq_false_iff_ne.mpr h]

theorem lookupCount_cons_eq (l : List (String × Nat)) (k : String) (v : Nat) :
    lookupCount ((k, v) :: l) k = v := by
  simp [lookupCount, List.lookup_cons_self]

theorem lookupCount_cons_ne (l : List (String × Nat)) (k k0 : String) (v : Nat)
    (h : ¬ k = k0) : lookupCount ((k0, v) :: l) k = lookupCount l k := by
  simp [lookupCount, lookup_cons_ne _ _ _ _ h]

theorem catCount_cons_eq (rest : List (String × List (String × Nat)))
    (cat : String) (ctr : List (String × Nat)) (kw : String) :
    catCount ((cat, ctr) :: rest) cat kw = lookupCount ctr kw := by
  simp [catCount, List.lookup_cons_self]

theorem catCount_cons_ne (rest : List (String × List (String × Nat)))
    (cat c0 : String) (ctr : List (String × Nat)) (kw : String) (h : ¬ cat = c0) :
    catCount ((c0, ctr) :: rest) cat kw = catCount rest cat kw := by
  simp [catCount, lookup_cons_ne _ _ _ _ h]

theorem lookupCount_incrKey (ctr : List (String × Nat)) (k k' : String) :
    lookupCount (incrKey ctr k) k' =
      if k' = k then lookupCount ctr k' + 1 else lookupCount ctr k' := by
  induction ctr with
  | nil =>
    by_cases h : k' = k
    · subst h; simp [incrKey, lookupCount_cons_eq, lookupCount]
    · rw [show incrKey [] k = [(k, 1)] from rfl, lookupCount_cons_ne _ _ _ _ h]
      simp [lookupCount, h]
  | cons p rest ih =>
    obtain ⟨k0, n0⟩ := p
    by_cases h0 : k0 = k
    · subst h0
      rw [show incrKey ((k0, n0) :: rest) k0 = (k0, n0 + 1) :: rest by
        simp [incrKey]]
      by_cases h : k' = k0
      · subst h; simp [lookupCount_cons_eq]
      · simp [lookupCount_cons_ne _ _ _ _ h, h]
    · rw [show incrKey ((k0, n0) :: rest) k = (k0, n0) :: incrKey rest k by
        simp [incrKey, h0]]
      by_cases h : k' = k0
      · subst h
        have hne : ¬ k' = k := fun hk => h0 (hk ▸ rfl)
        simp [lookupCount_cons_eq, hne]
      · rw [lookupCount_cons_ne _ _ _ _ h, lookupCount_cons_ne _ _ _ _ h, ih]

theorem catCount_bumpCategory (st : List (String × List (String × Nat)))
    (cat kw cat' kw' : String) :
    catCount (bumpCategory st cat kw) cat' kw' =
      if cat' = cat ∧ kw' = kw then catCount st cat' kw' + 1
      else catCount st cat' kw' := by
  induction st with
  | nil =>
    by_cases hc : cat' = cat
    · subst hc
      rw [show bumpCategory [] cat' kw = [(cat', [(kw, 1)])] by simp [bumpCategory, incrKey]]
      rw [catCount_cons_eq]
      by_cases hk : kw' = kw
      · subst hk
        simp [lookupCount_cons_eq, catCount, lookupCount]
      · rw [lookupCount_cons_ne _ _ _ _ hk]
        simp [hk, catCount, lookupCount]
    · rw [show bumpCategory [] cat kw = [(cat, [(kw, 1)])] by simp [bumpCategory, incrKey]]
      rw [catCount_cons_ne _ _ _ _ _ hc]
      simp [hc, catCount]
  | cons p rest ih =>
    obtain ⟨c0, ctr0⟩ := p
    by_cases h0 : c0 = cat
    · subst h0
      rw [show bumpCategory ((c0, ctr0) :: rest) c0 kw = (c0, incrKey ctr0 kw) :: rest by
        simp [bumpCategory]]
      by_cases hc : cat' = c0
      · subst hc
        rw [catCount_cons_eq, catCount_cons_eq, lookupCount_incrKey]
        by_cases hk : kw' = kw <;> simp [hk]
      · rw [catCount_cons_ne _ _ _ _ _ hc, catCount_cons_ne _ _ _ _ _ hc]
        simp [hc]
    · rw [show bumpCategory ((c0, ctr0) :: rest) cat kw =
          (c0, ctr0) :: bumpCategory rest cat kw by simp [bumpCategory, h0]]
      by_cases hc : cat' = c0
      · subst hc
        have hne : ¬ cat' = cat := fun hk => h0 (hk ▸ rfl)
        rw [catCount_cons_eq, catCount_cons_eq]
        simp [hne]
      · rw [catCount_cons_ne _ _ _ _ _ hc, catCount_cons_ne _ _ _ _ _ hc, ih]

theorem catCount_bump_foldl (kws : List String) (cat cat' kw : String) :
    ∀ st, catCount (kws.foldl (fun s k => bumpCategory s cat k) st) cat' kw =
      catCount st cat' kw + (if cat' = cat then kws.count kw else 0) := by
  induction kws with
  | nil => intro st; simp
  | cons k ks ih =>
    intro st
    simp only [List.foldl_cons, ih, catCount_bumpCategory]
    by_cases hc : cat' = cat
    · by_cases hk : kw = k
      · subst hk
        simp [hc, List.count_cons]
        omega
      · have : ¬ (cat' = cat ∧ kw = k) := fun ⟨_, h⟩ => hk h
        simp [this, hc, List.count_cons, hk]
    · have : ¬ (cat' = cat ∧ kw = k) := fun ⟨h, _⟩ => hc h
      simp [this, hc]

theorem catCount_add_article (st : List (String × List (String × Nat)))
    (a : KArticle) (cat kw : String) :
    catCount (add_article_keywords st a) cat kw =
      catCount st cat kw + (if contributesTo a cat kw then 1 else 0) := by
  cases hcat : a.category with
  | none => simp [add_article_keywords, contributesTo, hcat]
  | some c =>
    by_cases hskip : c = "" ∨ c = "unknown"
    · have hcf : contributesTo a cat kw = false := by
        cases ht : a.title with
        | none => simp [contributesTo, hcat, ht]
        | some t =>
          rcases hskip with rfl | rfl <;> simp [contributesTo, hcat, ht]
      rcases hskip with rfl | rfl <;>
        simp [add_article_keywords, hcat, hcf]
    · push_neg at hskip
      cases ht : a.title with
      | none => simp [add_article_keywords, contributesTo, hcat, ht, hskip.1, hskip.2]
      | some t =>
        by_cases htt : t = ""
        · subst htt
          simp [add_article_keywords, contributesTo, hcat, ht, hskip.1, hskip.2]
        · have hrun : add_article_keywords st a =
              (article_keywords t a.tags).foldl (fun s k => bumpCategory s c k) st := by
            simp [add_article_keywords, hcat, ht, hskip.1, hskip.2, htt]
          rw [hrun, catCount_bump_foldl]
          have hnd : (article_keywords t a.tags).Nodup := List.nodup_dedup _
          have hcount : (article_keywords t a.tags).count kw =
              if kw ∈ article_keywords t a.tags then 1 else 0 := by
            by_cases hm : kw ∈ article_keywords t a.tags
            · simp [hm, List.count_eq_one_of_mem hnd hm]
            · simp [hm, List.count_eq_zero.mpr hm]
          have hcontrib : contributesTo a cat kw =
              (decide (c = cat) && decide (kw ∈ article_keywords t a.tags)) := by
            simp [contributesTo, hcat, ht, hskip.1, hskip.2, htt]
          rw [hcontrib, hcount]
          by_cases hc : cat = c



          · subst hc
            by_cases hm : kw ∈ article_keywords t a.tags <;> simp [hm]
          · have : ¬ c = cat := fun h => hc (h ▸ rfl)
            simp [hc, this]

theorem catCount_foldl_articles (articles : List KArticle) (cat kw : String) :
    ∀ st, catCount (articles.foldl add_article_keywords st) cat kw =
      catCount st cat kw + docFrequency articles cat kw := by
  induction articles with
  | nil => intro st; simp [docFrequency]
  | cons a as ih =>
    intro st
    simp only [List.foldl_cons, ih, catCount_add_article]
    have : docFrequency (a :: as) cat kw =
        (if contributesTo a cat kw then 1 else 0) + docFrequency as cat kw := by
      by_cases h : contributesTo a cat kw <;>
        (simp [docFrequency, List.filter_cons, h]; try omega)
    rw [this]
    omega

/-! ## Key-uniqueness invariants of the labeler state -/

/-- The wellformedness Python dicts guarantee: distinct outer keys and
distinct keys in every per-category counter. -/
def GoodState (st : List (String × List (String × Nat))) : Prop :=
  (st.map Prod.fst).Nodup ∧ ∀ p ∈ st, ((p.2.map Prod.fst).Nodup)

theorem incrKey_keys (ctr : List (String × Nat)) (k : String) :
    (incrKey ctr k).map Prod.fst =
      if k ∈ ctr.map Prod.fst then ctr.map Prod.fst
      else ctr.map Prod.fst ++ [k] := by
  induction ctr with
  | nil => simp [incrKey]
  | cons p rest ih =>
    obtain ⟨k0, n0⟩ := p
    by_cases h0 : k0 = k
    · subst h0
      simp [incrKey]
    · have hne : ¬ k = k0 := fun h => h0 (h ▸ rfl)
      simp only [incrKey, if_neg h0, List.map_cons, ih, List.mem_cons]
      by_cases hm : k ∈ rest.map Prod.fst
      · simp [hm, hne]
      · simp [hm, hne]

theorem incrKey_keys_nodup (ctr : List (String × Nat)) (k : String)
    (h : (ctr.map Prod.fst).Nodup) : ((incrKey ctr k).map Prod.fst).Nodup := by
  rw [incrKey_keys]
  by_cases hm : k ∈ ctr.map Prod.fst
  · simpa [hm] using h
  · simp only [hm, if_neg, ite_false]
    simp [List.nodup_append, h, hm]

theorem bumpCategory_keys (st : List (String × List (String × Nat)))
    (cat kw : String) :
    (bumpCategory st cat kw).map Prod.fst =
      if cat ∈ st.map Prod.fst then st.map Prod.fst
      else st.map Prod.fst ++ [cat] := by
  induction st with
  | nil => simp [bumpCategory]
  | cons p rest ih =>
    obtain ⟨c0, ctr0⟩ := p
    by_cases h0 : c0 = cat
    · subst h0
      simp [bumpCategory]
    · have hne : ¬ cat = c0 := fun h => h0 (h ▸ rfl)
      simp only [bumpCategory, if_neg h0, List.map_cons, ih, List.mem_cons]
      by_cases hm : cat ∈ rest.map Prod.fst
      · simp [hm, hne]
      · simp [hm, hne]

theorem bumpCategory_inner_nodup (st : List (String × List (String × Nat)))
    (cat kw : String) (hinner : ∀ p ∈ st, ((p.2.map Prod.fst).Nodup)) :
    ∀ p ∈ bumpCategory st cat kw, ((p.2.map Prod.fst).Nodup) := by
  induction st with
  | nil =>
    intro p hp
    simp only [bumpCategory, List.mem_singleton] at hp
    subst hp
    simp [incrKey]
  | cons q rest ih =>
    obtain ⟨c0, ctr0⟩ := q
    intro p hp
    by_cases h0 : c0 = cat
    · rw [show bumpCategory ((c0, ctr0) :: rest) cat kw =
          (c0, incrKey ctr0 kw) :: rest by simp [bumpCategory, h0]] at hp
      rcases List.mem_cons.mp hp with heq | hmem
      · subst heq
        exact incrKey_keys_nodup _ _ (hinner (c0, ctr0) (List.mem_cons_self _ _))
      · exact hinner p (List.mem_cons_of_mem _ hmem)
    · rw [show bumpCategory ((c0, ctr0) :: rest) cat kw =
          (c0, ctr0) :: bumpCategory rest cat kw by simp [bumpCategory, h0]] at hp
      rcases List.mem_cons.mp hp with heq | hmem
      · subst heq
        exact hinner (c0, ctr0) (List.mem_cons_self _ _)
      · exact ih (fun q hq => hinner q (List.mem_cons_of_mem _ hq)) p hmem

theorem goodState_bumpCategory (st : List (String × List (String × Nat)))
    (cat kw : String) (h : GoodState st) : GoodState (bumpCategory st cat kw) := by
  obtain ⟨houter, hinner⟩ := h
  constructor
  · rw [bumpCategory_keys]
    by_cases hm : cat ∈ st.map Prod.fst
    · simpa [hm] using houter
    · simp only [hm, ite_false]
      simp [List.nodup_append, houter, hm]
  · exact bumpCategory_inner_nodup st cat kw hinner

theorem goodState_bump_foldl (kws : List String) (cat : String) :
    ∀ st, GoodState st →
      GoodState (kws.foldl (fun s k => bumpCategory s cat k) st) := by
  induction kws with
  | nil => exact fun st h => h
  | cons k ks ih =>
    intro st h
    exact ih _ (goodState_bumpCategory st cat k h)

theorem goodState_add_article (st : List (String × List (String × Nat)))
    (a : KArticle) (h : GoodState st) : GoodState (add_article_keywords st a) := by
  cases hcat : a.category with
  | none => simpa [add_article_keywords, hcat] using h
  | some c =>
    by_cases hskip : c = "" ∨ c = "unknown"
    · simpa [add_article_keywords, hcat, if_pos hskip] using h
    · cases ht : a.title with
      | none => simpa [add_article_keywords, hcat, if_neg hskip, ht] using h
      | some t =>
        by_cases htt : t = ""
        · simpa [add_article_keywords, hcat, if_neg hskip, ht, htt] using h
        · have : add_article_keywords st a =
              (article_keywords t a.tags).foldl (fun s k => bumpCategory s c k) st := by
            simp [add_article_keywords, hcat, if_neg hskip, ht, htt]
          rw [this]
          exact goodState_bump_foldl _ c st h

theorem goodState_foldl_articles (articles : List KArticle) :
    ∀ st, GoodState st → GoodState (articles.foldl add_article_keywords st) := by
  induction articles with
  | nil => exact fun st h => h
  | cons a as ih => exact fun st h => ih _ (goodState_add_article st a h)

theorem goodState_nil : GoodState [] := by constructor <;> simp

/-! ## Association-list lookup under key uniqueness -/

theorem mem_of_lookup_eq_some {β : Type} {l : List (String × β)} {k : String}
    {v : β} (h : List.lookup k l = some v) : (k, v) ∈ l := by
  obtain ⟨l₁, l₂, rfl, -⟩ := List.lookup_eq_some_iff.mp h
  exact List.mem_append.mpr (Or.inr (List.mem_cons_self _ _))

theorem lookup_eq_some_of_mem_nodupkeys {β : Type} {l : List (String × β)}
    (hnd : (l.map Prod.fst).Nodup) {k : String} {v : β} (h : (k, v) ∈ l) :
    List.lookup k l = some v := by
  induction l with
  | nil => cases h
  | cons q rest ih =>
    obtain ⟨k0, v0⟩ := q
    simp only [List.map_cons, List.nodup_cons] at hnd
    rcases List.mem_cons.mp h with heq | hmem
    · obtain ⟨rfl, rfl⟩ := Prod.mk.injEq .. ▸ heq
      exact List.lookup_cons_self
    · have hne : ¬ k = k0 := by
        rintro rfl
        exact hnd.1 (List.mem_map.mpr ⟨(k, v), hmem, rfl⟩)
      rw [lookup_cons_ne _ _ _ _ hne]
      exact ih hnd.2 hmem

theorem lookup_eq_none_of_not_mem_keys {β : Type} {l : List (String × β)}
    {k : String} (h : k ∉ l.map Prod.fst) : List.lookup k l = none := by
  refine List.lookup_eq_none_iff.mpr fun p hp => ?_
  refine bne_iff_ne.mpr fun heq => h ?_
  exact List.mem_map.mpr ⟨p, hp, heq.symm⟩

/-! ## `most_common`, `take`, `filter`: profile membership -/

theorem insertByCount_perm (p : String × Nat) (l : List (String × Nat)) :
    List.Perm (insertByCount p l) (p :: l) := by
  induction l with
  | nil => exact List.Perm.refl _
  | cons q qs ih =>
    by_cases h : p.2 ≤ q.2
    · rw [show insertByCount p (q :: qs) = q :: insertByCount p qs by
        simp [insertByCount, h]]
      exact (ih.cons q).trans (List.Perm.swap p q qs)
    · rw [show insertByCount p (q :: qs) = p :: q :: qs by simp [insertByCount, h]]

theorem foldl_insertByCount_perm (ctr : List (String × Nat)) :
    ∀ acc, List.Perm (ctr.foldl (fun a q => insertByCount q a) acc) (acc ++ ctr) := by
  induction ctr with
  | nil => intro acc; simp
  | cons p ps ih =>
    intro acc
    refine ((ih (insertByCount p acc)).trans ?_)
    refine ((insertByCount_perm p acc).append_right ps).trans ?_
    exact List.perm_middle.symm

theorem mostCommon_perm (ctr : List (String × Nat)) :
    List.Perm (mostCommon ctr) ctr := by
  simpa using foldl_insertByCount_perm ctr []

theorem mem_buildProfile {ctr : List (String × Nat)} {mk : Nat}
    {p : String × Nat} (h : p ∈ buildProfile ctr mk) : p ∈ ctr ∧ mk ≤ p.2 := by
  unfold buildProfile at h
  have h' := List.mem_filter.mp h
  refine ⟨?_, by simpa using h'.2⟩
  exact (mostCommon_perm ctr).mem_iff.mp (List.take_subset 100 _ h'.1)

theorem buildProfile_length (ctr : List (String × Nat)) (mk : Nat) :
    (buildProfile ctr mk).length ≤ 100 := by
  unfold buildProfile
  calc (((mostCommon ctr).take 100).filter _).length
      ≤ ((mostCommon ctr).take 100).length := List.length_filter_le _ _
    _ ≤ 100 := by simp [List.length_take]

/-! ## The profile-assignment fold -/

theorem lookup_setProfile_self (ps : List (String × List (String × Nat)))
    (cat : String) (prof : List (String × Nat)) :
    List.lookup cat (setProfile ps cat prof) = some prof := by
  induction ps with
  | nil => exact List.lookup_cons_self
  | cons q rest ih =>
    obtain ⟨c0, p0⟩ := q
    by_cases h0 : c0 = cat
    · subst h0
      rw [show setProfile ((c0, p0) :: rest) c0 prof = (c0, prof) :: rest by
        simp [setProfile]]
      exact List.lookup_cons_self
    · have hne : ¬ cat = c0 := fun h => h0 (h ▸ rfl)
      rw [show setProfile ((c0, p0) :: rest) cat prof =
          (c0, p0) :: setProfile rest cat prof by simp [setProfile, h0]]
      rw [lookup_cons_ne _ _ _ _ hne]
      exact ih

theorem lookup_setProfile_ne (ps : List (String × List (String × Nat)))
    (cat cat' : String) (prof : List (String × Nat)) (h : ¬ cat' = cat) :
    List.lookup cat' (setProfile ps cat prof) = List.lookup cat' ps := by
  induction ps with
  | nil =>
    simp only [setProfile]
    rw [lookup_cons_ne _ _ _ _ h]
  | cons q rest ih =>
    obtain ⟨c0, p0⟩ := q
    by_cases h0 : c0 = cat
    · subst h0
      rw [show setProfile ((c0, p0) :: rest) c0 prof = (c0, prof) :: rest by
        simp [setProfile]]
      rw [lookup_cons_ne _ _ _ _ h, lookup_cons_ne _ _ _ _ h]
    · rw [show setProfile ((c0, p0) :: rest) cat prof =
          (c0, p0) :: setProfile rest cat prof by simp [setProfile, h0]]
      by_cases hc : cat' = c0
      · subst hc
        rw [List.lookup_cons_self, List.lookup_cons_self]
      · rw [lookup_cons_ne _ _ _ _ hc, lookup_cons_ne _ _ _ _ hc, ih]

theorem lookup_profile_fold (mk : Nat) :
    ∀ (kwSt : List (String × List (String × Nat))),
      (kwSt.map Prod.fst).Nodup →
      ∀ (ps0 : List (String × List (String × Nat))) (cat : String),
        List.lookup cat
            (kwSt.foldl (fun ps cp => setProfile ps cp.1 (buildProfile cp.2 mk)) ps0) =
          match List.lookup cat kwSt with
          | some ctr => some (buildProfile ctr mk)
          | none => List.lookup cat ps0 := by
  intro kwSt
  induction kwSt with
  | nil => intro _ ps0 cat; simp
  | cons q rest ih =>
    intro hnd ps0 cat
    obtain ⟨c0, ctr0⟩ := q
    simp only [List.map_cons, List.nodup_cons] at hnd
    simp only [List.foldl_cons]
    by_cases hc : cat = c0
    · subst hc
      have hnone : List.lookup cat rest = none :=
        lookup_eq_none_of_not_mem_keys hnd.1
      rw [ih hnd.2 _ cat, hnone, List.lookup_cons_self]
      simp [lookup_setProfile_self]
    · rw [ih hnd.2 _ cat, lookup_cons_ne _ _ _ _ hc]
      cases List.lookup cat rest with
      | some ctr => rfl
      | none => simp [lookup_setProfile_ne _ _ _ _ hc]

/-! ## Profile content characterization (shared by C5 and C6) -/

theorem lookup_rebuild_eq {articles : List KArticle} {mk : Nat} {cat : String}
    {prof : List (String × Nat)}
    (h : List.lookup cat (rebuild_profiles articles mk) = some prof) :
    ∃ ctr, List.lookup cat (articles.foldl add_article_keywords []) = some ctr ∧
      prof = buildProfile ctr mk := by
  have hgood : GoodState (articles.foldl add_article_keywords []) :=
    goodState_foldl_articles articles [] goodState_nil
  have hdef : rebuild_profiles articles mk =
      (articles.foldl add_article_keywords []).foldl
        (fun ps cp => setProfile ps cp.1 (buildProfile cp.2 mk)) [] := rfl
  rw [hdef, lookup_profile_fold mk _ hgood.1 [] cat] at h
  cases hl : List.lookup cat (articles.foldl add_article_keywords []) with
  | none => rw [hl] at h; simp at h
  | some ctr =>
    rw [hl] at h
    simp only at h
    exact ⟨ctr, rfl, (Option.some.injEq .. ▸ h).symm⟩

theorem rebuild_profile_entry {articles : List KArticle} {mk : Nat}
    {cat : String} {prof : List (String × Nat)}
    (h : List.lookup cat (rebuild_profiles articles mk) = some prof) :
    prof.length ≤ 100 ∧
      ∀ p ∈ prof, mk ≤ p.2 ∧ p.2 = docFrequency articles cat p.1 := by
  obtain ⟨ctr, hl, rfl⟩ := lookup_rebuild_eq h
  have hgood : GoodState (articles.foldl add_article_keywords []) :=
    goodState_foldl_articles articles [] goodState_nil
  refine ⟨buildProfile_length ctr mk, fun p hp => ?_⟩
  obtain ⟨hpc, hmk⟩ := mem_buildProfile hp
  refine ⟨hmk, ?_⟩
  have hctrnd : (ctr.map Prod.fst).Nodup :=
    hgood.2 (cat, ctr) (mem_of_lookup_eq_some hl)
  have hlk : List.lookup p.1 ctr = some p.2 :=
    lookup_eq_some_of_mem_nodupkeys hctrnd (by simpa using hpc)
  have hcc : catCount (articles.foldl add_article_keywords []) cat p.1 = p.2 := by
    simp [catCount, hl, lookupCount, hlk]
  have hfold := catCount_foldl_articles articles cat p.1 []
  rw [hcc] at hfold
  simpa [catCount, lookupCount] using hfold

/-! Every count a counter ever stores is at least 1 (`incrKey` starts at 1),
so built profiles always satisfy the positivity hypothesis of the
classification theorems below. -/

theorem incrKey_values_pos {ctr : List (String × Nat)} (k : String)
    (h : ∀ q ∈ ctr, 1 ≤ q.2) : ∀ q ∈ incrKey ctr k, 1 ≤ q.2 := by
  induction ctr with
  | nil =>
    intro q hq
    simp only [incrKey, List.mem_singleton] at hq
    subst hq
    exact Nat.le_refl 1
  | cons p rest ih =>
    obtain ⟨k0, n0⟩ := p
    intro q hq
    by_cases h0 : k0 = k
    · rw [show incrKey ((k0, n0) :: rest) k = (k0, n0 + 1) :: rest by
        simp [incrKey, h0]] at hq
      rcases List.mem_cons.mp hq with rfl | hq'
      · simp
      · exact h q (List.mem_cons_of_mem _ hq')
    · rw [show incrKey ((k0, n0) :: rest) k = (k0, n0) :: incrKey rest k by
        simp [incrKey, h0]] at hq
      rcases List.mem_cons.mp hq with rfl | hq'
      · exact h (k0, n0) (List.mem_cons_self _ _)
      · exact ih (fun q hq => h q (List.mem_cons_of_mem _ hq)) q hq'

theorem bumpCategory_values_pos
    {st : List (String × List (String × Nat))} (cat kw : String)
    (h : ∀ p ∈ st, ∀ q ∈ p.2, 1 ≤ q.2) :
    ∀ p ∈ bumpCategory st cat kw, ∀ q ∈ p.2, 1 ≤ q.2 := by
  induction st with
  | nil =>
    intro p hp
    simp only [bumpCategory, List.mem_singleton] at hp
    subst hp
    intro q hq
    simp only [incrKey, List.mem_singleton] at hq
    subst hq
    exact Nat.le_refl 1
  | cons p0 rest ih =>
    obtain ⟨c0, ctr0⟩ := p0
    intro p hp
    by_cases h0 : c0 = cat
    · rw [show bumpCategory ((c0, ctr0) :: rest) cat kw =
          (c0, incrKey ctr0 kw) :: rest by simp [bumpCategory, h0]] at hp
      rcases List.mem_cons.mp hp with rfl | hp'
      · exact incrKey_values_pos kw (h (c0, ctr0) (List.mem_cons_self _ _))
      · exact h p (List.mem_cons_of_mem _ hp')
    · rw [show bumpCategory ((c0, ctr0) :: rest) cat kw =
          (c0, ctr0) :: bumpCategory rest cat kw by simp [bumpCategory, h0]] at hp
      rcases List.mem_cons.mp hp with rfl | hp'
      · exact h (c0, ctr0) (List.mem_cons_self _ _)
      · exact ih (fun p hp => h p (List.mem_cons_of_mem _ hp)) p hp'

theorem foldl_articles_values_pos (articles : List KArticle) :
    ∀ (st : List (String × List (String × Nat))),
      (∀ p ∈ st, ∀ q ∈ p.2, 1 ≤ q.2) →
      ∀ p ∈ articles.foldl add_article_keywords st, ∀ q ∈ p.2, 1 ≤ q.2 := by
  induction articles with
  | nil => exact fun st h => h
  | cons a as ih =>
    intro st h
    refine ih _ ?_
    cases hcat : a.category with
    | none => simpa [add_article_keywords, hcat] using h
    | some c =>
      by_cases hskip : c = "" ∨ c = "unknown"
      · simpa [add_article_keywords, hcat, if_pos hskip] using h
      · cases ht : a.title with
        | none => simpa [add_article_keywords, hcat, if_neg hskip, ht] using h
        | some t =>
          by_cases htt : t = ""
          · simpa [add_article_keywords, hcat, if_neg hskip, ht, htt] using h
          · rw [show add_article_keywords st a =
                (article_keywords t a.tags).foldl
                  (fun s k => bumpCategory s c k) st by
              simp [add_article_keywords, hcat, if_neg hskip, ht, htt]]
            generalize article_keywords t a.tags = kws
            induction kws generalizing st with
            | nil => exact h
            | cons k ks ihk =>
              exact ihk _ (bumpCategory_values_pos c k h)

/-- Built profiles always carry positive stored counts: the positivity
hypothesis of the classification theorems holds for every profile set the
build produces. -/
theorem rebuild_profiles_counts_pos (articles : List KArticle) (mk : Nat)
    (cat : String) (prof : List (String × Nat))
    (h : List.lookup cat (rebuild_profiles articles mk) = some prof) :
    ∀ p ∈ prof, 1 ≤ p.2 := by
  obtain ⟨ctr, hl, rfl⟩ := lookup_rebuild_eq h
  intro p hp
  have hctr : (cat, ctr) ∈ articles.foldl add_article_keywords [] :=
    mem_of_lookup_eq_some hl
  exact foldl_articles_values_pos articles [] (by simp) (cat, ctr) hctr p
    (mem_buildProfile hp).1

/-! ## C6 — profile bounds and document-frequency counts -/

/-- C6: every profile the build retains has at most 100 keywords, every
retained keyword's count is at least `min_keywords`, and each count is the
document frequency of the keyword within the category — one increment per
article, however often the keyword occurs in that article's title and tags
(the per-article pool is a set). -/
theorem build_category_profiles_bounds :
    ∀ (articles : List KArticle) (mk : Nat) (cat : String)
      (prof : List (String × Nat)),
      List.lookup cat (rebuild_profiles articles mk) = some prof →
      prof.length ≤ 100 ∧
        ∀ p ∈ prof, mk ≤ p.2 ∧ p.2 = docFrequency articles cat p.1 :=
  fun _ _ _ _ h => rebuild_profile_entry h

/-- C6 (witness): a concrete one-article corpus, evaluated. -/
theorem build_category_profiles_bounds_witness :
    (List.lookup "sport"
        (rebuild_profiles [⟨some "sport", some "football striker", []⟩] 1) =
      some [("football", 1), ("striker", 1)]) ∧
    ([("football", 1), ("striker", 1)].length ≤ 100 ∧
      ∀ p ∈ [("football", 1), ("striker", 1)], 1 ≤ p.2 ∧
        p.2 = docFrequency [⟨some "sport", some "football striker", []⟩] "sport" p.1) := by
  refine ⟨by decide, ?_⟩
  exact build_category_profiles_bounds
    [⟨some "sport", some "football striker", []⟩] 1 "sport"
    [("football", 1), ("striker", 1)] (by decide)

/-! ## C5 — rebuilding is wholesale -/

/-- C5: a rebuild constructs a fresh labeler (`__init__`) and builds from
scratch, so running the profile build a second time over the same records
yields exactly the same profiles, and every count in the rebuilt profiles is
exactly the document frequency over the given records — no old counts are
merged in. -/
theorem rebuild_profiles_wholesale :
    ∀ (articles : List KArticle) (mk : Nat),
      rebuild_profiles articles mk = rebuild_profiles articles mk
      ∧ ∀ (cat : String) (prof : List (String × Nat)),
          List.lookup cat (rebuild_profiles articles mk) = some prof →
          ∀ p ∈ prof, p.2 = docFrequency articles cat p.1 :=
  fun _ _ => ⟨rfl, fun _ _ h p hp => ((rebuild_profile_entry h).2 p hp).2⟩

/-! ## Python `max` and the score list -/

theorem pyMaxBy_ge_base {α : Type} (key : α → Nat) :
    ∀ (xs : List α) (b : α), key b ≤ key (pyMaxBy key b xs) := by
  intro xs
  induction xs with
  | nil => intro b; exact Nat.le_refl _
  | cons x xs ih =>
    intro b
    by_cases h : key b < key x
    · rw [show pyMaxBy key b (x :: xs) = pyMaxBy key x xs by simp [pyMaxBy, h]]
      exact Nat.le_trans (Nat.le_of_lt h) (ih x)
    · rw [show pyMaxBy key b (x :: xs) = pyMaxBy key b xs by simp [pyMaxBy, h]]
      exact ih b

/-- Python's `max` returns the first element attaining the maximum: the
input splits around the returned element, everything before it strictly
below, everything after at most equal. -/
theorem pyMaxBy_decomp {α : Type} (key : α → Nat) :
    ∀ (xs : List α) (b : α), ∃ l₁ l₂,
      b :: xs = l₁ ++ pyMaxBy key b xs :: l₂ ∧
      (∀ y ∈ l₁, key y < key (pyMaxBy key b xs)) ∧
      (∀ y ∈ l₂, key y ≤ key (pyMaxBy key b xs)) := by
  intro xs
  induction xs with
  | nil => intro b; exact ⟨[], [], rfl, by simp, by simp⟩
  | cons x xs ih =>
    intro b
    by_cases h : key b < key x
    · rw [show pyMaxBy key b (x :: xs) = pyMaxBy key x xs by simp [pyMaxBy, h]]
      obtain ⟨l₁, l₂, heq, hlt, hle⟩ := ih x
      refine ⟨b :: l₁, l₂, ?_, ?_, hle⟩
      · rw [List.cons_append, ← heq]
      · intro y hy
        rcases List.mem_cons.mp hy with rfl | hy'
        · exact Nat.lt_of_lt_of_le h (pyMaxBy_ge_base key xs x)
        · exact hlt y hy'
    · rw [show pyMaxBy key b (x :: xs) = pyMaxBy key b xs by simp [pyMaxBy, h]]
      obtain ⟨l₁, l₂, heq, hlt, hle⟩ := ih b
      cases l₁ with
      | nil =>
        simp only [List.nil_append] at heq
        obtain ⟨hb, hxs⟩ := List.cons.injEq .. ▸ heq
        refine ⟨[], x :: l₂, ?_, by simp, ?_⟩
        · simp [← hb, ← hxs]
        · intro y hy
          rcases List.mem_cons.mp hy with rfl | hy'
          · rw [← hb]; exact Nat.le_of_not_lt h
          · exact hle y hy'
      | cons a t =>
        simp only [List.cons_append] at heq
        obtain ⟨hb, hxs⟩ := List.cons.injEq .. ▸ heq
        refine ⟨b :: x :: t, l₂, ?_, ?_, hle⟩
        · simp only [List.cons_append]
          rw [← hxs]
        · intro y hy
          rcases List.mem_cons.mp hy with rfl | hy'
          · exact hb ▸ hlt a (List.mem_cons_self a t)
          · rcases List.mem_cons.mp hy' with rfl | hy''
            · exact Nat.lt_of_le_of_lt (Nat.le_of_not_lt h)
                (hb ▸ hlt a (List.mem_cons_self a t))
            · exact hlt y (List.mem_cons_of_mem a hy'')

theorem pyMaxBy_mem {α : Type} (key : α → Nat) (xs : List α) (b : α) :
    pyMaxBy key b xs ∈ b :: xs := by
  obtain ⟨l₁, l₂, heq, -, -⟩ := pyMaxBy_decomp key xs b
  rw [heq]
  exact List.mem_append.mpr (Or.inr (List.mem_cons_self _ _))

theorem filterMap_eq_append_cons {α β : Type} (f : α → Option β) :
    ∀ {l : List α} {s₁ : List β} {x : β} {s₂ : List β},
      l.filterMap f = s₁ ++ x :: s₂ →
      ∃ l₁ a l₂, l = l₁ ++ a :: l₂ ∧ f a = some x ∧
        l₁.filterMap f = s₁ ∧ l₂.filterMap f = s₂ := by
  intro l
  induction l with
  | nil =>
    intro s₁ x s₂ h
    simp only [List.filterMap_nil] at h
    exact absurd h.symm (List.append_ne_nil_of_right_ne_nil s₁ (by simp))
  | cons a l ih =>
    intro s₁ x s₂ h
    cases hfa : f a with
    | none =>
      rw [List.filterMap_cons_none hfa] at h
      obtain ⟨l₁, a', l₂, rfl, hfa', h₁, h₂⟩ := ih h
      exact ⟨a :: l₁, a', l₂, rfl, hfa', by rw [List.filterMap_cons_none hfa, h₁], h₂⟩
    | some b =>
      rw [List.filterMap_cons_some hfa] at h
      cases s₁ with
      | nil =>
        simp only [List.nil_append] at h
        obtain ⟨rfl, h₂⟩ := List.cons.injEq .. ▸ h
        exact ⟨[], a, l, rfl, hfa, rfl, h₂⟩
      | cons c t =>
        simp only [List.cons_append] at h
        obtain ⟨rfl, h'⟩ := List.cons.injEq .. ▸ h
        obtain ⟨l₁, a', l₂, rfl, hfa', h₁, h₂⟩ := ih h'
        exact ⟨a :: l₁, a', l₂, rfl, hfa',
          by rw [List.filterMap_cons_some hfa, h₁], h₂⟩

/-- Decode one `category_scores` entry. -/
theorem categoryScores_entry {kws : List String} {cp : String × List (String × Nat)}
    {e : String × Nat × ℚ × Nat}
    (h : scoreEntry kws cp = some e) :
    cp.2 ≠ [] ∧ e.1 = cp.1 ∧ e.2.1 = keywordMatches kws cp.2 ∧
      0 < keywordMatches kws cp.2 ∧
      e.2.2.1 = (keywordMatches kws cp.2 : ℚ) / (cp.2.length : ℚ) ∧
      e.2.2.2 = weightedScore kws cp.2 := by
  unfold scoreEntry at h
  by_cases h1 : cp.2 = []
  · rw [if_pos h1] at h; cases h
  · rw [if_neg h1] at h
    by_cases h2 : 0 < keywordMatches kws cp.2
    · simp only [h2, if_pos] at h
      obtain rfl := (Option.some.injEq .. ▸ h).symm
      exact ⟨h1, rfl, rfl, h2, rfl, rfl⟩
    · simp only [h2] at h
      simp at h

theorem mem_categoryScores {profiles : List (String × List (String × Nat))}
    {kws : List String} {e : String × Nat × ℚ × Nat}
    (h : e ∈ categoryScores profiles kws) :
    ∃ pk, (e.1, pk) ∈ profiles ∧ pk ≠ [] ∧ e.2.1 = keywordMatches kws pk ∧
      0 < keywordMatches kws pk ∧
      e.2.2.1 = (keywordMatches kws pk : ℚ) / (pk.length : ℚ) ∧
      e.2.2.2 = weightedScore kws pk := by
  obtain ⟨cp, hcp, hfe⟩ := List.mem_filterMap.mp h
  obtain ⟨h1, h2, h3, h4, h5, h6⟩ := categoryScores_entry hfe
  exact ⟨cp.2, by rw [h2]; exact (by simpa using hcp), h1, h3, h4, h5, h6⟩

/-- The score of a category whose profile matched nothing is zero. -/
theorem weightedScore_eq_zero {kws : List String} {pk : List (String × Nat)}
    (h : keywordMatches kws pk = 0) : weightedScore kws pk = 0 := by
  unfold keywordMatches at h
  unfold weightedScore
  rw [List.length_eq_zero.mp h]
  rfl

theorem weightedScore_pos {kws : List String} {pk : List (String × Nat)}
    (hpos : ∀ p ∈ pk, 1 ≤ p.2) (h : 0 < keywordMatches kws pk) :
    0 < weightedScore kws pk := by
  unfold keywordMatches at h
  obtain ⟨w, hw⟩ := List.exists_mem_of_length_pos h
  have hsome : (List.lookup w pk).isSome = true := (List.mem_filter.mp hw).2
  obtain ⟨v, hv⟩ := Option.isSome_iff_exists.mp hsome
  have hmem : v ∈ (kws.filter (fun kw => (List.lookup kw pk).isSome)).map
      (fun kw => (List.lookup kw pk).getD 0) :=
    List.mem_map.mpr ⟨w, hw, by rw [hv]; rfl⟩
  have hv1 : 1 ≤ v := hpos (w, v) (mem_of_lookup_eq_some hv)
  calc 0 < v := hv1
    _ ≤ weightedScore kws pk := List.single_le_sum (by simp) v hmem

/-- Matches never exceed the profile size: the input keyword pool is a set. -/
theorem keywordMatches_le_length {kws : List String} (hnd : kws.Nodup)
    (pk : List (String × Nat)) : keywordMatches kws pk ≤ pk.length := by
  unfold keywordMatches
  have hsub : ∀ w ∈ kws.filter (fun kw => (List.lookup kw pk).isSome),
      w ∈ pk.map Prod.fst := by
    intro w hw
    have hsome : (List.lookup w pk).isSome = true := (List.mem_filter.mp hw).2
    obtain ⟨v, hv⟩ := Option.isSome_iff_exists.mp hsome
    exact List.mem_map.mpr ⟨(w, v), mem_of_lookup_eq_some hv, rfl⟩
  have hndf : (kws.filter (fun kw => (List.lookup kw pk).isSome)).Nodup :=
    hnd.filter _
  calc (kws.filter (fun kw => (List.lookup kw pk).isSome)).length
      = (kws.filter (fun kw => (List.lookup kw pk).isSome)).toFinset.card :=
        (List.toFinset_card_of_nodup hndf).symm
    _ ≤ (pk.map Prod.fst).toFinset.card := by
        refine Finset.card_le_card fun x hx => ?_
        rw [List.mem_toFinset] at hx ⊢
        exact hsub x hx
    _ ≤ (pk.map Prod.fst).length := List.toFinset_card_le _
    _ = pk.length := List.length_map _ _

/-- `classify_by_keywords`, unfolded. -/
theorem classify_by_keywords_eq (profiles : List (String × List (String × Nat)))
    (title : String) (tags : List String) :
    classify_by_keywords profiles title tags =
      if title = "" then none
      else if all_keywords_of title tags = [] then none
      else
        match categoryScores profiles (all_keywords_of title tags) with
        | [] => none
        | s :: ss =>
          if 2 ≤ (pyMaxBy (fun e => e.2.2.2) s ss).2.1 ∧
              (1 : ℚ) / 10 < (pyMaxBy (fun e => e.2.2.2) s ss).2.2.1 then
            some ((pyMaxBy (fun e => e.2.2.2) s ss).1,
              (pyMaxBy (fun e => e.2.2.2) s ss).2.2.1)
          else none := rfl

/-- Destructor for a successful classification. -/
theorem classify_eq_some {profiles : List (String × List (String × Nat))}
    {title : String} {tags : List String} {c : String} {q : ℚ}
    (h : classify_by_keywords profiles title tags = some (c, q)) :
    ∃ s ss, categoryScores profiles (all_keywords_of title tags) = s :: ss ∧
      c = (pyMaxBy (fun e => e.2.2.2) s ss).1 ∧
      q = (pyMaxBy (fun e => e.2.2.2) s ss).2.2.1 ∧
      2 ≤ (pyMaxBy (fun e => e.2.2.2) s ss).2.1 ∧
      (1 : ℚ) / 10 < (pyMaxBy (fun e => e.2.2.2) s ss).2.2.1 := by
  rw [classify_by_keywords_eq] at h
  by_cases ht : title = ""
  · rw [if_pos ht] at h; cases h
  · rw [if_neg ht] at h
    by_cases hk : all_keywords_of title tags = []
    · rw [if_pos hk] at h; cases h
    · rw [if_neg hk] at h
      cases hs : categoryScores profiles (all_keywords_of title tags) with
      | nil => rw [hs] at h; cases h
      | cons s ss =>
        rw [hs] at h
        simp only at h
        by_cases hcond : 2 ≤ (pyMaxBy (fun e => e.2.2.2) s ss).2.1 ∧
            (1 : ℚ) / 10 < (pyMaxBy (fun e => e.2.2.2) s ss).2.2.1
        · rw [if_pos hcond] at h
          obtain ⟨hc, hq⟩ := Prod.mk.injEq .. ▸ (Option.some.injEq .. ▸ h).symm
          exact ⟨s, ss, rfl, hc, hq, hcond.1, hcond.2⟩
        · rw [if_neg hcond] at h; cases h

/-! ## C1 — acceptance threshold and total fallback -/

/-- C1: the keyword classifier returns a classification only when the
selected best category has at least 2 matches and confidence above 0.1; a
missing title, an empty keyword pool, no positively-matching category, or a
failed threshold each yield `None` (the embedding is a total function, so no
exception can be raised). -/
theorem classify_by_keywords_threshold :
    ∀ (profiles : List (String × List (String × Nat))) (title : String)
      (tags : List String),
      (∀ c q, classify_by_keywords profiles title tags = some (c, q) →
        ∃ pk, (c, pk) ∈ profiles ∧ pk ≠ [] ∧
          2 ≤ keywordMatches (all_keywords_of title tags) pk ∧
          q = (keywordMatches (all_keywords_of title tags) pk : ℚ) /
            ((pk.length : ℚ)) ∧
          (1 : ℚ) / 10 < q)
      ∧ (title = "" → classify_by_keywords profiles title tags = none)
      ∧ (all_keywords_of title tags = [] →
          classify_by_keywords profiles title tags = none)
      ∧ (categoryScores profiles (all_keywords_of title tags) = [] →
          classify_by_keywords profiles title tags = none)
      ∧ (∀ s ss, categoryScores profiles (all_keywords_of title tags) = s :: ss →
          ¬ (2 ≤ (pyMaxBy (fun e => e.2.2.2) s ss).2.1 ∧
              (1 : ℚ) / 10 < (pyMaxBy (fun e => e.2.2.2) s ss).2.2.1) →
          classify_by_keywords profiles title tags = none) := by
  intro profiles title tags
  refine ⟨?_, ?_, ?_, ?_, ?_⟩
  · intro c q h
    obtain ⟨s, ss, hs, hc, hq, hm, hconf⟩ := classify_eq_some h
    have hbest : pyMaxBy (fun e => e.2.2.2) s ss ∈
        categoryScores profiles (all_keywords_of title tags) := by
      rw [hs]; exact pyMaxBy_mem _ ss s
    obtain ⟨pk, hmem, hne, hkm, -, hcf, -⟩ := mem_categoryScores hbest
    exact ⟨pk, by rw [hc]; exact hmem, hne, by rw [← hkm]; exact hm,
      by rw [hq, hcf], by rw [hq]; exact hconf⟩
  · intro ht
    rw [classify_by_keywords_eq, if_pos ht]
  · intro hk
    by_cases ht : title = ""
    · rw [classify_by_keywords_eq, if_pos ht]
    · rw [classify_by_keywords_eq, if_neg ht, if_pos hk]
  · intro hs
    by_cases ht : title = ""
    · rw [classify_by_keywords_eq, if_pos ht]
    · by_cases hk : all_keywords_of title tags = []
      · rw [classify_by_keywords_eq, if_neg ht, if_pos hk]
      · rw [classify_by_keywords_eq, if_neg ht, if_neg hk, hs]
  · intro s ss hs hcond
    by_cases ht : title = ""
    · rw [classify_by_keywords_eq, if_pos ht]
    · by_cases hk : all_keywords_of title tags = []
      · rw [classify_by_keywords_eq, if_neg ht, if_pos hk]
      · rw [classify_by_keywords_eq, if_neg ht, if_neg hk, hs]
        simp only [if_neg hcond]

/-! ## C2 — score computation, best selection, tie-break -/

theorem keywordMatches_nil (kws : List String) : keywordMatches kws [] = 0 := by
  unfold keywordMatches
  rw [List.filter_eq_nil_iff.mpr]
  · rfl
  · intro w _
    simp [List.lookup]

theorem scoreEntry_none_weightedScore {kws : List String}
    {cp : String × List (String × Nat)} (h : scoreEntry kws cp = none) :
    weightedScore kws cp.2 = 0 := by
  unfold scoreEntry at h
  by_cases h1 : cp.2 = []
  · rw [h1, weightedScore_eq_zero (keywordMatches_nil kws)]
  · rw [if_neg h1] at h
    by_cases h2 : 0 < keywordMatches kws cp.2
    · simp only [h2, if_pos] at h; cases h
    · exact weightedScore_eq_zero (Nat.eq_zero_of_not_pos h2)

/-- C2: when a classification is returned, each scored category's
`confidence` is its match count divided by its profile size and its weight is
`weightedScore`; the returned category occupies a position in the profile
enumeration whose weighted score is maximal, with every earlier-enumerated
category scoring strictly lower — the first enumerated wins exact ties.
(Profiles built by `build_category_profiles` always have positive stored
counts — `rebuild_profiles_counts_pos` — which the hypothesis records.) -/
theorem classify_by_keywords_best_score :
    ∀ (profiles : List (String × List (String × Nat))) (title : String)
      (tags : List String) (c : String) (q : ℚ),
      (∀ cp ∈ profiles, ∀ p ∈ cp.2, 1 ≤ p.2) →
      classify_by_keywords profiles title tags = some (c, q) →
      ∃ pk l₁ l₂,
        profiles = l₁ ++ (c, pk) :: l₂ ∧ pk ≠ [] ∧
        2 ≤ keywordMatches (all_keywords_of title tags) pk ∧
        q = (keywordMatches (all_keywords_of title tags) pk : ℚ) /
          ((pk.length : ℚ)) ∧
        (∀ cp ∈ profiles, weightedScore (all_keywords_of title tags) cp.2 ≤
          weightedScore (all_keywords_of title tags) pk) ∧
        (∀ cp ∈ l₁, weightedScore (all_keywords_of title tags) cp.2 <
          weightedScore (all_keywords_of title tags) pk) := by
  intro profiles title tags c q hpos h
  obtain ⟨s, ss, hs, hc, hq, hm, hconf⟩ := classify_eq_some h
  obtain ⟨s₁, s₂, hsplit, hstrict, hle⟩ :=
    pyMaxBy_decomp (fun e => e.2.2.2) ss s
  have hscores : categoryScores profiles (all_keywords_of title tags) =
      s₁ ++ pyMaxBy (fun e => e.2.2.2) s ss :: s₂ := by rw [hs, hsplit]
  obtain ⟨l₁, cp, l₂, hprof, hfcp, hf₁, hf₂⟩ :=
    filterMap_eq_append_cons (scoreEntry (all_keywords_of title tags)) hscores
  obtain ⟨hne, he1, he2, hm0, he3, he4⟩ := categoryScores_entry hfcp
  have hcp_mem : cp ∈ profiles := by
    rw [hprof]; exact List.mem_append.mpr (Or.inr (List.mem_cons_self _ _))
  have hcp_eq : cp = (c, cp.2) := by
    rw [hc, he1]
  have hwpos : 0 < weightedScore (all_keywords_of title tags) cp.2 :=
    weightedScore_pos (hpos cp hcp_mem) hm0
  refine ⟨cp.2, l₁, l₂, by rw [← hcp_eq]; exact hprof, hne, ?_, ?_, ?_, ?_⟩
  · rw [← he2]; exact hm
  · rw [hq, he3]
  · intro cp' hmem'
    cases hsc : scoreEntry (all_keywords_of title tags) cp' with
    | none =>
      rw [scoreEntry_none_weightedScore hsc]
      exact Nat.zero_le _
    | some e' =>
      have he'mem : e' ∈ categoryScores profiles (all_keywords_of title tags) :=
        List.mem_filterMap.mpr ⟨cp', hmem', hsc⟩
      obtain ⟨-, -, -, -, -, he'4⟩ := categoryScores_entry hsc
      rw [← he'4, ← he4]
      rw [hscores] at he'mem
      rcases List.mem_append.mp he'mem with h1 | h1
      · exact Nat.le_of_lt (hstrict e' h1)
      · rcases List.mem_cons.mp h1 with rfl | h2
        · exact Nat.le_refl _
        · exact hle e' h2
  · intro cp' hmem'
    cases hsc : scoreEntry (all_keywords_of title tags) cp' with
    | none =>
      rw [scoreEntry_none_weightedScore hsc]
      exact hwpos
    | some e' =>
      have he'mem : e' ∈ s₁ := by
        rw [← hf₁]
        exact List.mem_filterMap.mpr ⟨cp', hmem', hsc⟩
      obtain ⟨-, -, -, -, -, he'4⟩ := categoryScores_entry hsc
      rw [← he'4, ← he4]
      exact hstrict e' he'mem

/-- C2 (witness): a two-category profile set evaluated at a concrete title;
`"sport"` (second enumerated, weight 11) beats `"business"` (weight 3). -/
theorem classify_by_keywords_best_score_witness :
    ∃ pk l₁ l₂,
      [("business", [("market", 3)]), ("sport", [("striker", 5), ("goal", 6)])] =
        l₁ ++ ("sport", pk) :: l₂ ∧ pk ≠ [] ∧
      2 ≤ keywordMatches (all_keywords_of "striker goal market" []) pk ∧
      (1 : ℚ) = (keywordMatches (all_keywords_of "striker goal market" []) pk : ℚ) /
        ((pk.length : ℚ)) ∧
      (∀ cp ∈ [("business", [("market", 3)]),
          ("sport", [("striker", 5), ("goal", 6)])],
        weightedScore (all_keywords_of "striker goal market" []) cp.2 ≤
          weightedScore (all_keywords_of "striker goal market" []) pk) ∧
      (∀ cp ∈ l₁, weightedScore (all_keywords_of "striker goal market" []) cp.2 <
        weightedScore (all_keywords_of "striker goal market" []) pk) :=
  classify_by_keywords_best_score
    [("business", [("market", 3)]), ("sport", [("striker", 5), ("goal", 6)])]
    "striker goal market" [] "sport" 1 (by decide) (by
      rw [classify_by_keywords_eq, if_neg (by decide),
        show all_keywords_of "striker goal market" [] = ["striker", "goal", "market"]
          by decide,
        if_neg (by decide)]
      rw [show categoryScores
          [("business", [("market", 3)]), ("sport", [("striker", 5), ("goal", 6)])]
          ["striker", "goal", "market"] =
        [("business", 1, ((1 : Nat) : ℚ) / ((1 : Nat) : ℚ), 3),
         ("sport", 2, ((2 : Nat) : ℚ) / ((2 : Nat) : ℚ), 11)] from rfl]
      dsimp only
      rw [show pyMaxBy (fun e => e.2.2.2)
          ("business", 1, ((1 : Nat) : ℚ) / ((1 : Nat) : ℚ), 3)
          [("sport", 2, ((2 : Nat) : ℚ) / ((2 : Nat) : ℚ), 11)] =
          ("sport", 2, ((2 : Nat) : ℚ) / ((2 : Nat) : ℚ), 11) from rfl]
      norm_num)

/-! ## C10 — totality, guarded division, confidence bounds -/

/-- C10: the keyword classifier is total — every call returns `none` or a
pair whose confidence lies in (0, 1] — and every scored category arises from
a non-empty profile (empty profiles are skipped before the division
`matches / len(profile_keywords)` is formed, whose divisor is therefore
positive). -/
theorem classify_by_keywords_total_guarded :
    ∀ (profiles : List (String × List (String × Nat))) (title : String)
      (tags : List String),
      (∀ e ∈ categoryScores profiles (all_keywords_of title tags),
        ∃ pk, (e.1, pk) ∈ profiles ∧ pk ≠ [] ∧ 0 < pk.length ∧
          e.2.2.1 = (e.2.1 : ℚ) / ((pk.length : ℚ)))
      ∧ (classify_by_keywords profiles title tags = none ∨
          ∃ c q, classify_by_keywords profiles title tags = some (c, q) ∧
            0 < q ∧ q ≤ 1) := by
  intro profiles title tags
  constructor
  · intro e he
    obtain ⟨pk, hmem, hne, hm, -, hcf, -⟩ := mem_categoryScores he
    exact ⟨pk, hmem, hne, List.length_pos.mpr hne, by rw [hcf, hm]⟩
  · cases hr : classify_by_keywords profiles title tags with
    | none => exact Or.inl rfl
    | some p =>
      obtain ⟨c, q⟩ := p
      refine Or.inr ⟨c, q, rfl, ?_, ?_⟩
      all_goals {
        obtain ⟨s, ss, hs, hc, hq, hm, -⟩ := classify_eq_some hr
        have hbest : pyMaxBy (fun e => e.2.2.2) s ss ∈
            categoryScores profiles (all_keywords_of title tags) := by
          rw [hs]; exact pyMaxBy_mem _ ss s
        obtain ⟨pk, -, hne, hkm, -, hcf, -⟩ := mem_categoryScores hbest
        have hlen : (0 : ℚ) < (pk.length : ℚ) := by
          exact_mod_cast List.length_pos.mpr hne
        have hmpos : 0 < keywordMatches (all_keywords_of title tags) pk := by
          rw [← hkm]; omega
        first
        | · rw [hq, hcf]
            exact div_pos (by exact_mod_cast hmpos) hlen
        | · rw [hq, hcf]
            refine (div_le_one hlen).mpr ?_
            exact_mod_cast keywordMatches_le_length
              (List.nodup_dedup _) pk
      }

/-! ## C9 — training error condition and stratified split -/

theorem countLabel_filter_form (ll : List TLArticle) (l : String) :
    countLabel (trainLabels ll) l =
      (ll.filter (fun a => decide (a.label = l))).length := by
  unfold countLabel trainLabels
  rw [List.filter_map]
  simp [Function.comp_def]

theorem countLabel_append (l₁ l₂ : List String) (l : String) :
    countLabel (l₁ ++ l₂) l = countLabel l₁ l + countLabel l₂ l := by
  simp [countLabel, List.filter_append]

theorem countLabel_eq_zero_of_not_mem {ll : List String} {l : String}
    (h : l ∉ ll) : countLabel ll l = 0 := by
  unfold countLabel
  rw [List.filter_eq_nil_iff.mpr]
  · rfl
  · intro x hx
    simp only [decide_eq_true_eq]
    rintro rfl
    exact h hx

theorem count_flatten_parts (f : String → List TLArticle)
    (hf : ∀ c, ∀ a ∈ f c, a.label = c) :
    ∀ (cats : List String), cats.Nodup → ∀ l,
      countLabel (trainLabels ((cats.map f).flatten)) l =
        if l ∈ cats then (f l).length else 0 := by
  intro cats
  induction cats with
  | nil => intro _ l; simp [trainLabels, countLabel]
  | cons c cs ih =>
    intro hnd l
    rw [List.nodup_cons] at hnd
    have hsplit : trainLabels (((c :: cs).map f).flatten) =
        trainLabels (f c) ++ trainLabels ((cs.map f).flatten) := by
      simp [trainLabels]
    rw [hsplit, countLabel_append, ih hnd.2 l]
    by_cases hlc : l = c
    · subst hlc
      have h1 : countLabel (trainLabels (f l)) l = (f l).length := by
        rw [countLabel_filter_form, List.filter_eq_self.mpr]
        intro a ha
        simp [hf l a ha]
      rw [h1]
      simp [hnd.1]
    · have h1 : countLabel (trainLabels (f c)) l = 0 := by
        rw [countLabel_filter_form, List.filter_eq_nil_iff.mpr]
        · rfl
        · intro a ha
          simp only [decide_eq_true_eq]
          rw [hf c a ha]
          exact fun h => hlc h.symm
      rw [h1]
      simp [List.mem_cons, hlc]

theorem strat_group_length (data : List TLArticle) (l : String) :
    (strat_group data l).length = countLabel (trainLabels data) l :=
  (countLabel_filter_form data l).symm

/-- C9: training fails with the spec's `DataError` exactly when some
category has fewer than 2 examples — fatally, with no partial model — and
otherwise performs the 80/20 label-stratified split: each label contributes
`n - n / 5` records to the training side and `n / 5` to the test side, and
the vocabulary is fitted on the training split.  The embedding is a pure
function of the corpus (the fixed random seed of the source makes the split
deterministic), so a second training run yields these same splits and the
same vocabulary by reflexivity. -/
theorem train_classifier_stratified :
    ∀ (data : List TLArticle),
      (train_classifier data = .error .insufficientData ↔
        ∃ a ∈ data, countLabel (trainLabels data) a.label < 2)
      ∧ ((∀ a ∈ data, 2 ≤ countLabel (trainLabels data) a.label) →
          train_classifier data =
            .ok (train_split data, test_split data,
              build_vocabulary (trainTexts (train_split data)))
          ∧ ∀ l : String,
              countLabel (trainLabels (test_split data)) l =
                countLabel (trainLabels data) l / 5 ∧
              countLabel (trainLabels (train_split data)) l =
                countLabel (trainLabels data) l -
                  countLabel (trainLabels data) l / 5) := by
  intro data
  have hany : (data.any (fun a => decide (countLabel (trainLabels data) a.label < 2))
      = true) ↔ ∃ a ∈ data, countLabel (trainLabels data) a.label < 2 := by
    simp [List.any_eq_true]
  constructor
  · constructor
    · intro h
      by_cases hc : data.any (fun a => decide (countLabel (trainLabels data) a.label < 2))
      · exact hany.mp hc
      · exfalso
        have : train_classifier data =
            .ok (train_split data, test_split data,
              build_vocabulary (trainTexts (train_split data))) := by
          unfold train_classifier train_test_split
          rw [if_neg hc]
        rw [this] at h
        cases h
    · intro hex
      have hc := hany.mpr hex
      unfold train_classifier train_test_split
      rw [if_pos hc]
  · intro hge
    have hc : ¬ data.any (fun a => decide (countLabel (trainLabels data) a.label < 2)) = true := by
      rw [hany]
      push_neg
      intro a ha
      exact hge a ha
    refine ⟨by unfold train_classifier train_test_split; rw [if_neg hc], ?_⟩
    intro l
    have hcats : ((trainLabels data).dedup).Nodup := List.nodup_dedup _
    have hgrp : ∀ c, ∀ a ∈ strat_group data c, a.label = c := by
      intro c a ha
      have := List.mem_filter.mp ha
      simpa using this.2
    have hte := count_flatten_parts
      (fun c => (strat_group data c).drop
        ((strat_group data c).length - (strat_group data c).length / 5))
      (fun c a ha => hgrp c a (List.mem_of_mem_drop ha))
      ((trainLabels data).dedup) hcats l
    have htr := count_flatten_parts
      (fun c => (strat_group data c).take
        ((strat_group data c).length - (strat_group data c).length / 5))
      (fun c a ha => hgrp c a (List.mem_of_mem_take ha))
      ((trainLabels data).dedup) hcats l
    have hmem_iff : l ∈ (trainLabels data).dedup ↔ l ∈ trainLabels data :=
      List.mem_dedup
    constructor
    · rw [show trainLabels (test_split data) =
          trainLabels ((((trainLabels data).dedup).map (fun c =>
            (strat_group data c).drop
              ((strat_group data c).length - (strat_group data c).length / 5))).flatten)
        from rfl, hte]
      by_cases hl : l ∈ (trainLabels data).dedup
      · rw [if_pos hl, List.length_drop, strat_group_length]
        have := Nat.div_le_self (countLabel (trainLabels data) l) 5
        omega
      · rw [if_neg hl,
          countLabel_eq_zero_of_not_mem (fun hm => hl (hmem_iff.mpr hm))]
    · rw [show trainLabels (train_split data) =
          trainLabels ((((trainLabels data).dedup).map (fun c =>
            (strat_group data c).take
              ((strat_group data c).length - (strat_group data c).length / 5))).flatten)
        from rfl, htr]
      by_cases hl : l ∈ (trainLabels data).dedup
      · rw [if_pos hl, List.length_take, strat_group_length]
        have := Nat.div_le_self (countLabel (trainLabels data) l) 5
        omega
      · rw [if_neg hl,
          countLabel_eq_zero_of_not_mem (fun hm => hl (hmem_iff.mpr hm))]

/-! ## C8 — helper lemmas: argmax, findIdx, argsort -/

theorem argmaxGo_correct (vals : List ℚ) :
    ∀ (l : List ℚ) (i bi : Nat) (bv : ℚ),
      vals.drop i = l → bi < vals.length → bv = vals.getD bi 0 →
      (∀ j, j < i → vals.getD j 0 ≤ bv) →
      argmaxGo vals bi i bv l < vals.length ∧
        ∀ j, j < vals.length →
          vals.getD j 0 ≤ vals.getD (argmaxGo vals bi i bv l) 0 := by
  intro l
  induction l with
  | nil =>
    intro i bi bv hdrop hbi hbv hmax
    have hlen : vals.length ≤ i := by
      have := congrArg List.length hdrop
      simp only [List.length_drop, List.length_nil] at this
      omega
    have hgo : argmaxGo vals bi i bv [] = bi := rfl
    rw [hgo]
    refine ⟨hbi, fun j hj => ?_⟩
    rw [← hbv]
    exact hmax j (Nat.lt_of_lt_of_le hj hlen)
  | cons y ys ih =>
    intro i bi bv hdrop hbi hbv hmax
    have hi : i < vals.length := by
      by_contra hle
      rw [List.drop_eq_nil_of_le (Nat.le_of_not_lt hle)] at hdrop
      cases hdrop
    have hy : vals.getD i 0 = y := by
      have h0 : (vals.drop i).getD 0 0 = y := by rw [hdrop]; rfl
      rw [List.getD_eq_getElem _ _ hi]
      rw [List.getD_eq_getElem _ _ (by simp [List.length_drop]; omega)] at h0
      rw [← h0]
      simp
    have hdrop' : vals.drop (i + 1) = ys := by
      have : vals.drop (i + 1) = (vals.drop i).drop 1 := by
        rw [List.drop_drop, Nat.add_comm]
      rw [this, hdrop]
      rfl
    by_cases hlt : bv < y
    · rw [show argmaxGo vals bi i bv (y :: ys) = argmaxGo vals i (i + 1) y ys by
        simp [argmaxGo, hlt]]
      refine ih (i + 1) i y hdrop' hi hy.symm ?_
      intro j hj
      rcases Nat.lt_succ_iff_lt_or_eq.mp hj with h | rfl
      · exact (lt_of_le_of_lt (hmax j h) hlt).le
      · rw [hy]
    · rw [show argmaxGo vals bi i bv (y :: ys) = argmaxGo vals bi (i + 1) bv ys by
        simp [argmaxGo, hlt]]
      refine ih (i + 1) bi bv hdrop' hbi hbv ?_
      intro j hj
      rcases Nat.lt_succ_iff_lt_or_eq.mp hj with h | rfl
      · exact hmax j h
      · rw [hy]
        exact le_of_not_lt hlt

theorem argmaxFirst_correct (vals : List ℚ) (hne : vals ≠ []) :
    argmaxFirst vals < vals.length ∧
      ∀ j, j < vals.length → vals.getD j 0 ≤ vals.getD (argmaxFirst vals) 0 := by
  cases vals with
  | nil => exact absurd rfl hne
  | cons x xs =>
    have h := argmaxGo_correct (x :: xs) xs 1 0 x rfl (by simp) (by simp)
      (fun j hj => by interval_cases j; simp)
    exact h

theorem findIdx_getD_of_nodup (classes : List String) (hnd : classes.Nodup) :
    ∀ i, i < classes.length →
      classes.findIdx (fun c => decide (c = classes.getD i "")) = i := by
  induction classes with
  | nil => intro i hi; cases hi
  | cons c cs ih =>
    intro i hi
    rw [List.nodup_cons] at hnd
    cases i with
    | zero => simp [List.findIdx_cons]
    | succ j =>
      rw [List.getD_cons_succ]
      have hj : j < cs.length := by simpa using hi
      have hne : (c = cs.getD j "") = False := by
        simp only [eq_iff_iff, iff_false]
        intro heq
        exact hnd.1 (heq ▸ List.getD_eq_getElem cs "" hj ▸ List.getElem_mem hj)
      rw [List.findIdx_cons]
      simp only [hne, decide_False, cond_false]
      rw [ih hnd.2 j hj]

/-- The probability-order relation over indices used by `argsortAsc`. -/
theorem argsortAsc_perm (vals : List ℚ) :
    (argsortAsc vals).Perm (List.range vals.length) :=
  List.perm_insertionSort _ _

theorem argsortAsc_sorted (vals : List ℚ) :
    List.Pairwise (fun a b => vals.getD a 0 ≤ vals.getD b 0) (argsortAsc vals) := by
  haveI : IsTotal Nat (probLE vals) := ⟨fun a b => le_total _ _⟩
  haveI : IsTrans Nat (probLE vals) := ⟨fun a b c => le_trans⟩
  exact List.sorted_insertionSort (probLE vals) (List.range vals.length)

/-! ## C8 — model-level lemmas -/

theorem jointLikelihood_length (m : NBModel) (x : List Nat) :
    (jointLikelihood m x).length = m.classes.length := by
  simp [jointLikelihood]

theorem mem_zipWith_decomp {α β γ : Type} {f : α → β → γ} :
    ∀ {as : List α} {bs : List β} {c : γ}, c ∈ List.zipWith f as bs →
      ∃ a ∈ as, ∃ b ∈ bs, c = f a b := by
  intro as
  induction as with
  | nil => intro bs c hc; simp at hc
  | cons a as ih =>
    intro bs c hc
    cases bs with
    | nil => simp at hc
    | cons b bs =>
      rw [List.zipWith_cons_cons] at hc
      rcases List.mem_cons.mp hc with rfl | hc'
      · exact ⟨a, List.mem_cons_self _ _, b, List.mem_cons_self _ _, rfl⟩
      · obtain ⟨a', ha', b', hb', rfl⟩ := ih hc'
        exact ⟨a', List.mem_cons_of_mem _ ha', b', List.mem_cons_of_mem _ hb', rfl⟩

theorem jointLikelihood_pos (m : NBModel) (hwf : m.WF) (x : List Nat) :
    ∀ j ∈ jointLikelihood m x, 0 < j := by
  obtain ⟨-, -, hplen, htlen, hppos, htpos⟩ := hwf
  intro j hj
  obtain ⟨i, hi, rfl⟩ := List.mem_map.mp hj
  rw [List.mem_range] at hi
  have h1 : 0 < m.prior.getD i 0 := by
    rw [List.getD_eq_getElem _ _ (by omega)]
    exact hppos _ (List.getElem_mem _)
  have h2 : 0 < ((m.theta.getD i []).zipWith (fun t n => t ^ n) x).prod := by
    refine List.prod_pos fun a ha => ?_
    have hrow : m.theta.getD i [] ∈ m.theta := by
      rw [List.getD_eq_getElem _ _ (by omega)]
      exact List.getElem_mem _
    obtain ⟨t, ht, n, hn, rfl⟩ := mem_zipWith_decomp ha
    exact pow_pos (htpos _ hrow t ht) n
  exact mul_pos h1 h2

theorem predict_proba_length (m : NBModel) (text : String) :
    (predict_proba m text).length = m.classes.length := by
  simp [predict_proba, jointLikelihood]

theorem jointLikelihood_sum_pos (m : NBModel) (hwf : m.WF) (x : List Nat) :
    0 < (jointLikelihood m x).sum := by
  refine List.sum_pos _ (jointLikelihood_pos m hwf x) ?_
  intro h
  have := congrArg List.length h
  rw [jointLikelihood_length] at this
  exact hwf.1 (List.length_eq_zero.mp (by simpa using this))

theorem predict_proba_getD (m : NBModel) (text : String) {j : Nat}
    (hj : j < m.classes.length) :
    (predict_proba m text).getD j 0 =
      (jointLikelihood m (vectorize m.vocab text)).getD j 0 /
        (jointLikelihood m (vectorize m.vocab text)).sum := by
  unfold predict_proba
  have hj' : j < (jointLikelihood m (vectorize m.vocab text)).length := by
    rw [jointLikelihood_length]; exact hj
  rw [List.getD_eq_getElem _ _ (by simpa using hj'), List.getElem_map,
    List.getD_eq_getElem _ _ hj']

theorem predict_proba_le_iff (m : NBModel) (hwf : m.WF) (text : String)
    {i j : Nat} (hi : i < m.classes.length) (hj : j < m.classes.length) :
    (predict_proba m text).getD j 0 ≤ (predict_proba m text).getD i 0 ↔
      (jointLikelihood m (vectorize m.vocab text)).getD j 0 ≤
        (jointLikelihood m (vectorize m.vocab text)).getD i 0 := by
  rw [predict_proba_getD m text hi, predict_proba_getD m text hj]
  exact div_le_div_iff_of_pos_right (jointLikelihood_sum_pos m hwf _)

theorem labelOne_spec (m : NBModel) (hwf : m.WF) (text : String) :
    ∃ i, i < m.classes.length ∧
      (labelOne m text).label = m.classes.getD i "" ∧
      (∀ j, j < m.classes.length →
        (predict_proba m text).getD j 0 ≤ (predict_proba m text).getD i 0) ∧
      (labelOne m text).confidence = (predict_proba m text).getD i 0 * 100 ∧
      (labelOne m text).top_predictions.length = min 3 m.classes.length ∧
      List.Pairwise (fun a b => b.2 ≤ a.2) (labelOne m text).top_predictions ∧
      ∃ I : List Nat, I.Nodup ∧ (∀ k ∈ I, k < m.classes.length) ∧
        (labelOne m text).top_predictions = I.map (fun k =>
          (m.classes.getD k "", (predict_proba m text).getD k 0 * 100)) ∧
        ∀ k ∈ I, ∀ j, j < m.classes.length → j ∉ I →
          (predict_proba m text).getD j 0 ≤ (predict_proba m text).getD k 0 := by
  have hjslen : (jointLikelihood m (vectorize m.vocab text)).length =
      m.classes.length := jointLikelihood_length m _
  have hjsne : jointLikelihood m (vectorize m.vocab text) ≠ [] := by
    intro h
    exact hwf.1 (List.length_eq_zero.mp (by rw [← hjslen, h]; rfl))
  obtain ⟨hilt, himax⟩ := argmaxFirst_correct _ hjsne
  have hplen : (predict_proba m text).length = m.classes.length :=
    predict_proba_length m text
  refine ⟨argmaxFirst (jointLikelihood m (vectorize m.vocab text)),
    hjslen ▸ hilt, rfl, ?_, ?_, ?_, ?_, ?_⟩
  · intro j hj
    exact (predict_proba_le_iff m hwf text (hjslen ▸ hilt) hj).mpr
      (himax j (by omega))
  · have hidx : m.classes.findIdx (fun c => decide (c = predict m text)) =
        argmaxFirst (jointLikelihood m (vectorize m.vocab text)) := by
      rw [show predict m text = m.classes.getD
          (argmaxFirst (jointLikelihood m (vectorize m.vocab text))) "" from rfl]
      exact findIdx_getD_of_nodup m.classes hwf.2.1 _ (hjslen ▸ hilt)
    show (predict_proba m text).getD
        (m.classes.findIdx (fun c => decide (c = predict m text))) 0 * 100 = _
    rw [hidx]
  · show (((argsortAsc (predict_proba m text)).reverse.take 3).map (fun i =>
        (m.classes.getD i "", (predict_proba m text).getD i 0 * 100))).length =
      min 3 m.classes.length
    rw [List.length_map, List.length_take, List.length_reverse,
      (argsortAsc_perm _).length_eq, List.length_range, hplen]
  · show List.Pairwise (fun a b => b.2 ≤ a.2)
      (((argsortAsc (predict_proba m text)).reverse.take 3).map (fun i =>
        (m.classes.getD i "", (predict_proba m text).getD i 0 * 100)))
    refine List.pairwise_map.mpr ?_
    have hdesc : List.Pairwise (fun a b => (predict_proba m text).getD b 0 ≤
        (predict_proba m text).getD a 0)
        ((argsortAsc (predict_proba m text)).reverse) :=
      List.pairwise_reverse.mpr (argsortAsc_sorted _)
    have h3 := List.Pairwise.sublist (List.take_sublist 3 _) hdesc
    refine h3.imp ?_
    intro a b hab
    exact mul_le_mul_of_nonneg_right hab (by norm_num)
  · refine ⟨(argsortAsc (predict_proba m text)).reverse.take 3, ?_, ?_, rfl, ?_⟩
    · have h1 : (argsortAsc (predict_proba m text)).Nodup :=
        ((argsortAsc_perm _).nodup_iff).mpr (List.nodup_range _)
      exact (List.take_sublist 3 _).nodup (List.nodup_reverse.mpr h1)
    · intro k hk
      have hmem : k ∈ argsortAsc (predict_proba m text) :=
        List.mem_reverse.mp (List.mem_of_mem_take hk)
      have hr := (argsortAsc_perm _).mem_iff.mp hmem
      rw [List.mem_range, hplen] at hr
      exact hr
    · intro k hk j hj hjn
      have hjmem : j ∈ (argsortAsc (predict_proba m text)).reverse := by
        rw [List.mem_reverse]
        refine (argsortAsc_perm _).mem_iff.mpr ?_
        rw [List.mem_range, hplen]
        exact hj
      have hdesc : List.Pairwise (fun a b => (predict_proba m text).getD b 0 ≤
          (predict_proba m text).getD a 0)
          ((argsortAsc (predict_proba m text)).reverse) :=
        List.pairwise_reverse.mpr (argsortAsc_sorted _)
      have hsplit := List.take_append_drop 3 ((argsortAsc (predict_proba m text)).reverse)
      rw [← hsplit] at hdesc hjmem
      have hdrop : j ∈ (argsortAsc (predict_proba m text)).reverse.drop 3 := by
        rcases List.mem_append.mp hjmem with h | h
        · exact absurd h hjn
        · exact h
      exact (List.pairwise_append.mp hdesc).2.2 k hk j hdrop

theorem zipWith_pow_replicate_zero (row : List ℚ) :
    ∀ k, (List.zipWith (fun t n => t ^ n) row (List.replicate k 0)).prod = 1 := by
  induction row with
  | nil => intro k; simp
  | cons t ts ih =>
    intro k
    cases k with
    | zero => simp
    | succ k =>
      rw [List.replicate_succ, List.zipWith_cons_cons, List.prod_cons, ih k]
      simp

theorem range_map_getD (l : List ℚ) :
    (List.range l.length).map (fun i => l.getD i 0) = l := by
  refine List.ext_getElem (by simp) ?_
  intro n h1 h2
  rw [List.getElem_map, List.getElem_range]
  exact List.getD_eq_getElem l 0 h2

/-- Zero vocabulary overlap: the posterior falls back to the class priors. -/
theorem predict_proba_zero_overlap (m : NBModel) (hwf : m.WF) (text : String)
    (h : vectorize m.vocab text = List.replicate m.vocab.length 0) :
    predict_proba m text = m.prior.map (fun p => p / m.prior.sum) := by
  have hjl : jointLikelihood m (List.replicate m.vocab.length 0) = m.prior := by
    unfold jointLikelihood
    have hcongr : ∀ i ∈ List.range m.classes.length,
        m.prior.getD i 0 * ((m.theta.getD i []).zipWith (fun t n => t ^ n)
          (List.replicate m.vocab.length 0)).prod = m.prior.getD i 0 := by
      intro i _
      rw [zipWith_pow_replicate_zero _ _, mul_one]
    rw [List.map_congr_left hcongr,
      show m.classes.length = m.prior.length from hwf.2.2.1.symm]
    exact range_map_getD m.prior
  unfold predict_proba
  rw [h, hjl]

/-- C8: for every wellformed fitted model and every input text, the labeling
loop produces one record per text whose `label` is a class of maximal
posterior, whose `confidence` is that posterior as a 0–100 percentage, and
whose `top_predictions` are the `min 3 |classes|` distinct classes of
highest posterior listed in descending confidence order; a text with zero
vocabulary overlap still receives a prediction, its posterior vector being
the normalized class priors (never an error: the embedding is total). -/
theorem label_unknown_articles_posterior (m : NBModel) (hwf : m.WF)
    (texts : List String) :
    (label_unknown_articles m texts).length = texts.length
    ∧ (∀ r ∈ label_unknown_articles m texts,
        ∃ i, i < m.classes.length ∧
          r.label = m.classes.getD i "" ∧
          (∀ j, j < m.classes.length →
            (predict_proba m r.text).getD j 0 ≤ (predict_proba m r.text).getD i 0) ∧
          r.confidence = (predict_proba m r.text).getD i 0 * 100 ∧
          r.top_predictions.length = min 3 m.classes.length ∧
          List.Pairwise (fun a b => b.2 ≤ a.2) r.top_predictions ∧
          ∃ I : List Nat, I.Nodup ∧ (∀ k ∈ I, k < m.classes.length) ∧
            r.top_predictions = I.map (fun k =>
              (m.classes.getD k "", (predict_proba m r.text).getD k 0 * 100)) ∧
            ∀ k ∈ I, ∀ j, j < m.classes.length → j ∉ I →
              (predict_proba m r.text).getD j 0 ≤ (predict_proba m r.text).getD k 0)
    ∧ (∀ text, vectorize m.vocab text = List.replicate m.vocab.length 0 →
        predict_proba m text = m.prior.map (fun p => p / m.prior.sum)) := by
  refine ⟨List.length_map .., ?_,
    fun text h => predict_proba_zero_overlap m hwf text h⟩
  intro r hr
  obtain ⟨text, htext, rfl⟩ := List.mem_map.mp hr
  exact labelOne_spec m hwf text

/-- A concrete fitted model for the C8 witness. -/
def exampleModel : NBModel :=
  { classes := ["business", "sport", "tech"]
    prior := [2, 1, 1]
    theta := [[1, 2], [3, 1], [1, 1]]
    vocab := ["market", "goal"] }

theorem exampleModel_wf : exampleModel.WF := by
  refine ⟨by decide, by decide, rfl, rfl, ?_, ?_⟩
  · intro p hp
    fin_cases hp <;> norm_num
  · intro row hrow
    fin_cases hrow <;> (intro t ht; fin_cases ht <;> norm_num)

/-- C8 (witness): the labeling loop evaluated on a concrete model and text. -/
theorem label_unknown_articles_posterior_witness :
    (label_unknown_articles exampleModel ["goal scored today"]).length =
      ["goal scored today"].length :=
  (label_unknown_articles_posterior exampleModel exampleModel_wf
    ["goal scored today"]).1

end DataMining
